import Mathlib

/-!
Verification of the navigation/safety engine of the bombahead-js SDK
(`src/helpers.ts`, class `GameHelpers`) against its specification.

The embedding is shallow: JavaScript numbers that reach the engine are
finite (the sanitizer replaces NaN/Infinity before the engine sees state
data), so state coordinates are modelled as `Rat`; query positions coming
from the bot may additionally be malformed (non-object, missing or
non-finite coordinates), modelled by `PosInput.invalid`.  JavaScript array
indexing with a non-natural index yields `undefined`, modelled by `Option`.
While loops are modelled by fuel recursion; in each case the fuel bound
provably dominates the number of iterations the JavaScript loop performs,
and exhausted fuel returns the same value as an empty queue, so results
agree with the unfueled loop.
-/

namespace Bomba

/-- `CellType` from `src/enums.ts`. -/
inductive CellType where
  | AIR
  | WALL
  | BOX
deriving DecidableEq, Repr

/-- `Position` from `src/models.ts`: a pair of (finite) JavaScript numbers. -/
structure Position where
  x : Rat
  y : Rat
deriving DecidableEq, Repr

/-- `Action` from `src/enums.ts`. -/
inductive Action where
  | MOVE_UP
  | MOVE_DOWN
  | MOVE_LEFT
  | MOVE_RIGHT
  | PLACE_BOMB
  | DO_NOTHING
deriving DecidableEq, Repr

/-- `Bomb` from `src/models.ts`. -/
structure Bomb where
  pos : Position
  fuse : Rat
deriving DecidableEq, Repr

/-- `Player` from `src/models.ts`. -/
structure Player where
  id : String
  pos : Position
  health : Rat
  score : Rat
deriving DecidableEq, Repr

/-- `Field` from `src/models.ts`.  The engine must tolerate `cells` whose
shape disagrees with `width`/`height`, so the grid is kept as raw nested
lists. -/
structure Field where
  width : Int
  height : Int
  cells : List (List CellType)
deriving DecidableEq, Repr

/-- `GameState` from `src/models.ts`. -/
structure GameState where
  currentTick : Int
  me : Player
  opponents : List Player
  players : List Player
  field : Field
  bombs : List Bomb
  explosions : List Position
deriving DecidableEq, Repr

/-- A query argument of declared type `Position` as actually received from
the bot: either a well-formed position object with finite numeric
coordinates, or anything that fails `GameHelpers.isValidPosition`
(non-object, missing coordinate, NaN or infinite coordinate). -/
inductive PosInput where
  | invalid
  | valid (p : Position)
deriving DecidableEq, Repr

/-- `GameHelpers.isValidPosition`: the runtime shape check.  It accepts any
object with two finite numeric coordinates and rejects everything else;
note that it does not require the coordinates to be integers. -/
def isValidPosition : PosInput → Bool
  | .invalid => false
  | .valid _ => true

/-- JavaScript array indexing `l[i]` with a numeric index: an element is
returned exactly when the index is a natural number below the length;
negative, fractional or too-large indices yield `undefined` (`none`). -/
def ratIdx {α : Type} (l : List α) (i : Rat) : Option α :=
  if i.den = 1 ∧ 0 ≤ i.num then l[i.num.toNat]? else none

/-- `this.state.field.cells[pos.y]?.[pos.x]` - the cell under a position,
`none` when either lookup is `undefined`. -/
def cellAt (g : GameState) (p : Position) : Option CellType :=
  (ratIdx g.field.cells p.y).bind (fun row => ratIdx row p.x)

/-- `GameHelpers.inBounds`. -/
def inBounds (g : GameState) (p : Position) : Bool :=
  decide (0 ≤ p.x) && decide (0 ≤ p.y) &&
  decide (p.x < (g.field.width : Rat)) && decide (p.y < (g.field.height : Rat))

/-- `GameHelpers.isWalkable` on an already-validated position: in bounds,
cell neither WALL nor BOX, and no bomb occupies the position. -/
def isWalkableP (g : GameState) (p : Position) : Bool :=
  inBounds g p &&
  !(decide (cellAt g p = some CellType.WALL)) &&
  !(decide (cellAt g p = some CellType.BOX)) &&
  !(g.bombs.any (fun bomb => decide (bomb.pos = p)))

/-- `GameHelpers.isWalkable` (public entry: validity check first). -/
def isWalkable (g : GameState) : PosInput → Bool
  | .invalid => false
  | .valid p => isWalkableP g p

/-- The four orthogonal neighbours in the fixed order up, right, down,
left (`GameHelpers.getAdjacentPositions` and the literal neighbour list in
`getAdjacentWalkablePositions`). -/
def neighborsOf (p : Position) : List Position :=
  [⟨p.x, p.y - 1⟩, ⟨p.x + 1, p.y⟩, ⟨p.x, p.y + 1⟩, ⟨p.x - 1, p.y⟩]

/-- `GameHelpers.getAdjacentWalkablePositions` on a validated position. -/
def adjWalkP (g : GameState) (p : Position) : List Position :=
  (neighborsOf p).filter (fun q => isWalkableP g q)

/-- `GameHelpers.getAdjacentWalkablePositions` (public entry). -/
def getAdjacentWalkablePositions (g : GameState) : PosInput → List Position
  | .invalid => []
  | .valid p => adjWalkP g p

/-- `GameHelpers.actionBetween`. -/
def actionBetween (f t : Position) : Action :=
  if t.x = f.x + 1 then .MOVE_RIGHT
  else if t.x = f.x - 1 then .MOVE_LEFT
  else if t.y = f.y + 1 then .MOVE_DOWN
  else .MOVE_UP

/-- One blast ray of `GameHelpers.getBlastTiles`: tiles from `step`
onwards (the JavaScript loop runs `step = 1..3`, so `fuel` starts at 3).
The ray stops at the boundary, stops before a WALL, and stops after
including a BOX. -/
def blastRayFrom (g : GameState) (pos : Position) (dx dy : Int) :
    Nat → Nat → List Position
  | _, 0 => []
  | step, fuel + 1 =>
    let p : Position := ⟨pos.x + (dx : Rat) * (step : Rat), pos.y + (dy : Rat) * (step : Rat)⟩
    if !(inBounds g p) then []
    else if cellAt g p = some CellType.WALL then []
    else if cellAt g p = some CellType.BOX then [p]
    else p :: blastRayFrom g pos dx dy (step + 1) fuel

/-- The direction list of `getBlastTiles`: up, right, down, left. -/
def blastDirs : List (Int × Int) := [(0, -1), (1, 0), (0, 1), (-1, 0)]

/-- Blast footprint of a single bomb position (the body of the outer loop
of `GameHelpers.getBlastTiles` for one bomb): the bomb's own tile plus the
four rays of radius 3. -/
def blastTilesOfPos (g : GameState) (pos : Position) : List Position :=
  pos :: blastDirs.flatMap (fun d => blastRayFrom g pos d.1 d.2 1 3)

/-- `GameHelpers.getBlastTiles` over a list of bombs (the JavaScript `Set`
of keys is modelled as a list with membership semantics; the position key
string is injective on positions). -/
def getBlastTiles (g : GameState) (bombs : List Bomb) : List Position :=
  bombs.flatMap (fun b => blastTilesOfPos g b.pos)

/-- `byKey.get` of `getImminentExplosionBombs`: the JavaScript `Map` is
filled in list order with overwriting, so a lookup returns the last bomb
whose position has the given key. -/
def bombAtKey (g : GameState) (k : Position) : Option Bomb :=
  g.bombs.reverse.find? (fun bb => decide (bb.pos = k))

/-- The inner loop of `getImminentExplosionBombs` over the blast tiles of
one dequeued bomb: each tile key that holds a bomb and is not yet marked
exploding is appended to the keys and its bomb is queued. -/
def triggerScan (g : GameState) : List Position → List Position →
    List Position × List Bomb
  | [], keys => (keys, [])
  | k :: rest, keys =>
    match bombAtKey g k with
    | none => triggerScan g rest keys
    | some tb =>
      if k ∈ keys then triggerScan g rest keys
      else
        let r := triggerScan g rest (keys ++ [k])
        (r.1, tb :: r.2)

/-- The worklist loop of `getImminentExplosionBombs`, fueled.  The fuel
`2 * bombs.length + 1` dominates the loop count: every dequeue matches an
enqueue, initial enqueues are bombs with elapsed fuse and each later
enqueue adds a fresh bomb-position key, so there are at most
`2 * bombs.length` iterations. -/
def imminentAux (g : GameState) : Nat → List Bomb → List Position → List Position
  | 0, _, keys => keys
  | _ + 1, [], keys => keys
  | fuel + 1, b :: rest, keys =>
    let r := triggerScan g (blastTilesOfPos g b.pos) keys
    imminentAux g fuel (rest ++ r.2) r.1

/-- The set of exploding position keys computed by
`getImminentExplosionBombs`. -/
def imminentKeys (g : GameState) : List Position :=
  let initial := g.bombs.filter (fun b => decide (b.fuse ≤ 0))
  imminentAux g (2 * g.bombs.length + 1) initial (initial.map (fun b => b.pos))

/-- `GameHelpers.getImminentExplosionBombs`. -/
def getImminentExplosionBombs (g : GameState) : List Bomb :=
  let initial := g.bombs.filter (fun b => decide (b.fuse ≤ 0))
  if initial.isEmpty then []
  else g.bombs.filter (fun b => decide (b.pos ∈ imminentKeys g))

/-- `GameHelpers.isSafe` on a validated position. -/
def isSafeP (g : GameState) (p : Position) : Bool :=
  inBounds g p &&
  !(g.explosions.any (fun e => decide (e = p))) &&
  !(g.bombs.any (fun bomb => decide (bomb.pos = p))) &&
  !((getBlastTiles g (getImminentExplosionBombs g)).any (fun t => decide (t = p)))

/-- `GameHelpers.isSafe` (public entry). -/
def isSafe (g : GameState) : PosInput → Bool
  | .invalid => false
  | .valid p => isSafeP g p

/-- Fuel bound for the breadth-first searches.  Every position enqueued
from a walkable start lies in bounds and at an integral offset from the
start, so at most `(2*width+1) * (2*height+1)` positions are ever
enqueued; each loop iteration dequeues one, so this fuel dominates the
iteration count of the JavaScript `while` loops. -/
def bfsFuel (g : GameState) : Nat :=
  (2 * g.field.width.toNat + 1) * (2 * g.field.height.toNat + 1) + 1

/-- Association-list lookup used to model the JavaScript `Map` from
position key to first action (keys are written at most once, so appending
with first-match lookup is faithful). -/
def alookup : List (Position × Action) → Position → Option Action
  | [], _ => none
  | e :: rest, p => if e.1 = p then some e.2 else alookup rest p

/-- The inner `for` loop of `GameHelpers.getNextActionTowards` over the
walkable neighbours of the dequeued node `c`: skip visited neighbours,
record the discovered neighbour (visited set, queue, first-step map), and
return the recorded action the moment the target is discovered.
`Sum.inl` is the early `return`, `Sum.inr` the updated loop state. -/
def stepNeighbors (start target c : Position) :
    List Position → List Position → List Position → List (Position × Action) →
    Sum Action (List Position × List Position × List (Position × Action))
  | [], visited, queue, σ => Sum.inr (visited, queue, σ)
  | n :: rest, visited, queue, σ =>
    if n ∈ visited then stepNeighbors start target c rest visited queue σ
    else
      let a := if c = start then actionBetween c n else (alookup σ c).getD .DO_NOTHING
      if n = target then Sum.inl a
      else stepNeighbors start target c rest (visited ++ [n]) (queue ++ [n]) (σ ++ [(n, a)])

/-- The `while` loop of `GameHelpers.getNextActionTowards`, fueled. -/
def nextActionAux (g : GameState) (start target : Position) :
    Nat → List Position → List Position → List (Position × Action) → Action
  | 0, _, _, _ => .DO_NOTHING
  | _ + 1, [], _, _ => .DO_NOTHING
  | fuel + 1, c :: rest, visited, σ =>
    match stepNeighbors start target c (adjWalkP g c) visited rest σ with
    | .inl a => a
    | .inr (visited', queue', σ') => nextActionAux g start target fuel queue' visited' σ'

/-- `GameHelpers.getNextActionTowards`. -/
def getNextActionTowards (g : GameState) : PosInput → PosInput → Action
  | .valid s, .valid t =>
    if s = t then .DO_NOTHING
    else if !(isWalkableP g s) || !(isWalkableP g t) then .DO_NOTHING
    else nextActionAux g s t (bfsFuel g) [s] [s] []
  | _, _ => .DO_NOTHING

/-- Shared shape of the two dequeue-tested breadth-first searches
(`getNearestSafePosition` and `findNearestBox`): pop a node, return
`test` of it when that succeeds, otherwise enqueue its unvisited walkable
neighbours and continue. -/
def bfsFind (g : GameState) (test : Position → Option Position) :
    Nat → List Position → List Position → Option Position
  | 0, _, _ => none
  | _ + 1, [], _ => none
  | fuel + 1, c :: rest, visited =>
    match test c with
    | some r => some r
    | none =>
      let news := (adjWalkP g c).filter (fun p => decide (¬ p ∈ visited))
      bfsFind g test fuel (rest ++ news) (visited ++ news)

/-- The dequeue test of `getNearestSafePosition`: the node itself when it
is safe. -/
def safeTest (g : GameState) (c : Position) : Option Position :=
  if isSafeP g c then some c else none

/-- `GameHelpers.getNearestSafePosition`. -/
def getNearestSafePosition (g : GameState) : PosInput → Option Position
  | .invalid => none
  | .valid s =>
    if !(isWalkableP g s) then none
    else bfsFind g (safeTest g) (bfsFuel g) [s] [s]

/-- The dequeue test of `findNearestBox`: the first orthogonal neighbour
(up, right, down, left) that is in bounds and holds a BOX cell. -/
def boxTest (g : GameState) (c : Position) : Option Position :=
  (neighborsOf c).find? (fun a => inBounds g a && decide (cellAt g a = some CellType.BOX))

/-- `GameHelpers.findNearestBox`. -/
def findNearestBox (g : GameState) : PosInput → Option Position
  | .invalid => none
  | .valid s =>
    if !(isWalkableP g s) then none
    else bfsFind g (boxTest g) (bfsFuel g) [s] [s]

/-! ## Specification-side notions -/

/-- The spec's "integer coordinate": the rational is an integer. -/
def IntCoord (q : Rat) : Prop := q.den = 1

instance (q : Rat) : Decidable (IntCoord q) :=
  inferInstanceAs (Decidable (q.den = 1))

/-- The spec's walkability predicate as claimed (C4): integer, finite
coordinates; inside `[0,width) x [0,height)`; cell neither WALL nor BOX;
no bomb on the position; false for every other input. -/
def walkableClaimed (g : GameState) : PosInput → Prop
  | .invalid => False
  | .valid p =>
      IntCoord p.x ∧ IntCoord p.y ∧ inBounds g p = true ∧
      cellAt g p ≠ some CellType.WALL ∧ cellAt g p ≠ some CellType.BOX ∧
      ¬ ∃ b ∈ g.bombs, b.pos = p

instance (g : GameState) (pi : PosInput) : Decidable (walkableClaimed g pi) := by
  cases pi <;> simp only [walkableClaimed] <;> infer_instance

/-! ## C4: walkability characterization -/

/-- A concrete 2x2 all-AIR state with no bombs, used for counterexamples
and witnesses. -/
def cexState : GameState :=
  ⟨0, ⟨"me", ⟨0, 0⟩, 3, 0⟩, [], [],
   ⟨2, 2, [[CellType.AIR, CellType.AIR], [CellType.AIR, CellType.AIR]]⟩, [], []⟩

/-- C4 counterexample: on a 2x2 all-AIR bomb-free grid, the engine reports
the fractional position (1/2, 1/2) as walkable — `isValidPosition` only
checks finiteness, not integrality, and the array lookup at a fractional
index yields `undefined`, which is neither WALL nor BOX — whereas the
claim, which requires integer coordinates, says it must be false. -/
theorem C4_counterexample :
    isWalkable cexState (.valid ⟨mkRat 1 2, mkRat 1 2⟩) = true ∧
      ¬ walkableClaimed cexState (.valid ⟨mkRat 1 2, mkRat 1 2⟩) := by
  decide

/-- C4 (amended): `isWalkable(pos)` is true iff `pos` is a well-formed
position with finite coordinates that lies within `[0,width) x [0,height)`,
the cell-array lookup at `pos` (which yields no cell at non-integer
coordinates, treated as passable) is neither WALL nor BOX, and no bomb in
the bomb list occupies `pos`; any other input yields false. -/
theorem C4_walkable_characterization (g : GameState) (pi : PosInput) :
    isWalkable g pi = true ↔
      ∃ p, pi = .valid p ∧ inBounds g p = true ∧
        cellAt g p ≠ some CellType.WALL ∧ cellAt g p ≠ some CellType.BOX ∧
        ¬ ∃ b ∈ g.bombs, b.pos = p := by
  cases pi with
  | invalid => simp [isWalkable]
  | valid p =>
    simp only [isWalkable, isWalkableP, Bool.and_eq_true, Bool.not_eq_true',
      decide_eq_false_iff_not, List.any_eq_false, decide_eq_true_eq,
      PosInput.valid.injEq]
    constructor
    · rintro ⟨⟨⟨hb, hw⟩, hx⟩, hbmb⟩
      exact ⟨p, rfl, hb, hw, hx, fun ⟨b, hbmem, hbeq⟩ => hbmb b hbmem hbeq⟩
    · rintro ⟨q, rfl, hb, hw, hx, hbmb⟩
      exact ⟨⟨⟨hb, hw⟩, hx⟩, fun b hbmem hbeq => hbmb ⟨b, hbmem, hbeq⟩⟩

/-! ## C5: adjacency -/

/-- C5: for every valid position, `getAdjacentWalkablePositions` returns
exactly those of the four orthogonal neighbours (in the fixed order up,
right, down, left) that satisfy `isWalkable`, and membershipwise exactly
the walkable neighbours; a malformed position yields the empty list. -/
theorem C5_adjacent_walkable (g : GameState) (p : Position) :
    getAdjacentWalkablePositions g (.valid p) =
      ([⟨p.x, p.y - 1⟩, ⟨p.x + 1, p.y⟩, ⟨p.x, p.y + 1⟩, ⟨p.x - 1, p.y⟩] :
        List Position).filter (fun q => isWalkable g (.valid q)) ∧
    (∀ q, q ∈ getAdjacentWalkablePositions g (.valid p) ↔
      (q ∈ ([⟨p.x, p.y - 1⟩, ⟨p.x + 1, p.y⟩, ⟨p.x, p.y + 1⟩, ⟨p.x - 1, p.y⟩] :
        List Position) ∧ isWalkable g (.valid q) = true)) ∧
    getAdjacentWalkablePositions g .invalid = [] := by
  refine ⟨rfl, fun q => ?_, rfl⟩
  simp [getAdjacentWalkablePositions, adjWalkP, neighborsOf, List.mem_filter,
    isWalkable]

/-! ## C9: totality and fail-safe degradation -/

lemma inBounds_empty (g : GameState)
    (h : g.field.width ≤ 0 ∨ g.field.height ≤ 0) (p : Position) :
    inBounds g p = false := by
  rw [Bool.eq_false_iff]
  intro hT
  rw [inBounds] at hT
  simp only [Bool.and_eq_true, decide_eq_true_eq] at hT
  obtain ⟨⟨⟨hx0, hy0⟩, hxw⟩, hyh⟩ := hT
  rcases h with h | h
  · have hw : (g.field.width : Rat) ≤ 0 := by exact_mod_cast h
    linarith
  · have hh : (g.field.height : Rat) ≤ 0 := by exact_mod_cast h
    linarith

lemma isWalkableP_empty (g : GameState)
    (h : g.field.width ≤ 0 ∨ g.field.height ≤ 0) (p : Position) :
    isWalkableP g p = false := by
  simp [isWalkableP, inBounds_empty g h p]

lemma isSafeP_empty (g : GameState)
    (h : g.field.width ≤ 0 ∨ g.field.height ≤ 0) (p : Position) :
    isSafeP g p = false := by
  simp [isSafeP, inBounds_empty g h p]

/-- C9: every public engine query is a total function (the embedding is
total by construction, so no input can raise or index out of range), and
it degrades to its designated nothing/false/empty/no-op value both on
malformed position inputs and on every input over a grid with
`width <= 0` or `height <= 0`. -/
theorem C9_total_failsafe (g : GameState) :
    (isWalkable g .invalid = false ∧
     getAdjacentWalkablePositions g .invalid = [] ∧
     isSafe g .invalid = false ∧
     getNearestSafePosition g .invalid = none ∧
     findNearestBox g .invalid = none ∧
     (∀ u, getNextActionTowards g .invalid u = .DO_NOTHING) ∧
     (∀ u, getNextActionTowards g u .invalid = .DO_NOTHING)) ∧
    (g.field.width ≤ 0 ∨ g.field.height ≤ 0 →
      ∀ pi pj, isWalkable g pi = false ∧
        getAdjacentWalkablePositions g pi = [] ∧
        isSafe g pi = false ∧
        getNearestSafePosition g pi = none ∧
        findNearestBox g pi = none ∧
        getNextActionTowards g pi pj = .DO_NOTHING) := by
  constructor
  · refine ⟨rfl, rfl, rfl, rfl, rfl, fun u => rfl, fun u => ?_⟩
    cases u <;> rfl
  · intro h pi pj
    cases pi with
    | invalid =>
      refine ⟨rfl, rfl, rfl, rfl, rfl, rfl⟩
    | valid p =>
      refine ⟨isWalkableP_empty g h p, ?_, isSafeP_empty g h p, ?_, ?_, ?_⟩
      · show adjWalkP g p = []
        simp [adjWalkP, List.filter_eq_nil_iff, isWalkableP_empty g h]
      · show (if !(isWalkableP g p) then none else _) = none
        simp [isWalkableP_empty g h p]
      · show (if !(isWalkableP g p) then none else _) = none
        simp [isWalkableP_empty g h p]
      · cases pj with
        | invalid => rfl
        | valid q =>
          show (if p = q then Action.DO_NOTHING else _) = _
          simp [isWalkableP_empty g h p]

/-! ## C10: independence from player data -/

lemma cellAt_congr {g1 g2 : GameState} (hf : g1.field = g2.field) :
    cellAt g1 = cellAt g2 := by
  funext p; simp [cellAt, hf]

lemma inBounds_congr {g1 g2 : GameState} (hf : g1.field = g2.field) :
    inBounds g1 = inBounds g2 := by
  funext p; simp [inBounds, hf]

lemma isWalkableP_congr {g1 g2 : GameState} (hf : g1.field = g2.field)
    (hb : g1.bombs = g2.bombs) : isWalkableP g1 = isWalkableP g2 := by
  funext p; simp [isWalkableP, inBounds_congr hf, cellAt_congr hf, hb]

lemma adjWalkP_congr {g1 g2 : GameState} (hf : g1.field = g2.field)
    (hb : g1.bombs = g2.bombs) : adjWalkP g1 = adjWalkP g2 := by
  funext p; simp [adjWalkP, isWalkableP_congr hf hb]

lemma blastRayFrom_congr {g1 g2 : GameState} (hf : g1.field = g2.field)
    (pos : Position) (dx dy : Int) (fuel step : Nat) :
    blastRayFrom g1 pos dx dy step fuel = blastRayFrom g2 pos dx dy step fuel := by
  induction fuel generalizing step with
  | zero => rfl
  | succ n ih =>
    simp only [blastRayFrom, inBounds_congr hf, cellAt_congr hf, ih]

lemma blastTilesOfPos_congr {g1 g2 : GameState} (hf : g1.field = g2.field)
    (pos : Position) : blastTilesOfPos g1 pos = blastTilesOfPos g2 pos := by
  simp only [blastTilesOfPos]
  congr 1
  refine List.flatMap_congr ?_
  intro d _
  exact blastRayFrom_congr hf pos d.1 d.2 3 1

lemma getBlastTiles_congr {g1 g2 : GameState} (hf : g1.field = g2.field)
    (bombs : List Bomb) : getBlastTiles g1 bombs = getBlastTiles g2 bombs := by
  simp only [getBlastTiles]
  refine List.flatMap_congr ?_
  intro b _
  exact blastTilesOfPos_congr hf b.pos

lemma bombAtKey_congr {g1 g2 : GameState} (hb : g1.bombs = g2.bombs) :
    bombAtKey g1 = bombAtKey g2 := by
  funext k; simp [bombAtKey, hb]

lemma triggerScan_congr {g1 g2 : GameState}
    (hb : g1.bombs = g2.bombs) (tiles keys : List Position) :
    triggerScan g1 tiles keys = triggerScan g2 tiles keys := by
  induction tiles generalizing keys with
  | nil => rfl
  | cons k rest ih =>
    simp only [triggerScan, bombAtKey_congr hb, ih]

lemma imminentAux_congr {g1 g2 : GameState} (hf : g1.field = g2.field)
    (hb : g1.bombs = g2.bombs) (fuel : Nat) (queue : List Bomb) (keys : List Position) :
    imminentAux g1 fuel queue keys = imminentAux g2 fuel queue keys := by
  induction fuel generalizing queue keys with
  | zero => rfl
  | succ n ih =>
    cases queue with
    | nil => rfl
    | cons b rest =>
      simp only [imminentAux, blastTilesOfPos_congr hf, triggerScan_congr hb, ih]

lemma getImminentExplosionBombs_congr {g1 g2 : GameState} (hf : g1.field = g2.field)
    (hb : g1.bombs = g2.bombs) :
    getImminentExplosionBombs g1 = getImminentExplosionBombs g2 := by
  simp only [getImminentExplosionBombs, imminentKeys, hb,
    imminentAux_congr hf hb]

lemma isSafeP_congr {g1 g2 : GameState} (hf : g1.field = g2.field)
    (hb : g1.bombs = g2.bombs) (he : g1.explosions = g2.explosions) :
    isSafeP g1 = isSafeP g2 := by
  funext p
  simp only [isSafeP, inBounds_congr hf, hb, he,
    getImminentExplosionBombs_congr hf hb, getBlastTiles_congr hf]

lemma bfsFuel_congr {g1 g2 : GameState} (hf : g1.field = g2.field) :
    bfsFuel g1 = bfsFuel g2 := by
  simp [bfsFuel, hf]

set_option maxHeartbeats 1000000 in
lemma nextActionAux_congr {g1 g2 : GameState} (hf : g1.field = g2.field)
    (hb : g1.bombs = g2.bombs) (s t : Position) (fuel : Nat)
    (queue visited : List Position) (σ : List (Position × Action)) :
    nextActionAux g1 s t fuel queue visited σ =
      nextActionAux g2 s t fuel queue visited σ := by
  induction fuel generalizing queue visited σ with
  | zero => rfl
  | succ n ih =>
    cases queue with
    | nil => rfl
    | cons c rest =>
      simp only [nextActionAux, adjWalkP_congr hf hb]
      rcases h : stepNeighbors s t c (adjWalkP g2 c) visited rest σ with a | ⟨v', q', σ'⟩
      · simp only [h]
      · simp only [h]
        exact ih q' v' σ'

lemma bfsFind_congr {g1 g2 : GameState} (hf : g1.field = g2.field)
    (hb : g1.bombs = g2.bombs) {test1 test2 : Position → Option Position}
    (ht : test1 = test2) (fuel : Nat) (queue visited : List Position) :
    bfsFind g1 test1 fuel queue visited = bfsFind g2 test2 fuel queue visited := by
  subst ht
  induction fuel generalizing queue visited with
  | zero => rfl
  | succ n ih =>
    cases queue with
    | nil => rfl
    | cons c rest =>
      simp only [bfsFind, adjWalkP_congr hf hb]
      cases test1 c with
      | some r => rfl
      | none => simp only [ih]

/-- C10: the engine only reads `field`, `bombs` and `explosions` from the
game state, so any two states agreeing on those three components give
identical answers to every public query on every input: player positions
never block walkability and never affect safety or routing. -/
theorem C10_player_independence (g1 g2 : GameState)
    (hf : g1.field = g2.field) (hb : g1.bombs = g2.bombs)
    (he : g1.explosions = g2.explosions) :
    (∀ pi, isWalkable g1 pi = isWalkable g2 pi) ∧
    (∀ pi, getAdjacentWalkablePositions g1 pi = getAdjacentWalkablePositions g2 pi) ∧
    (∀ pi pj, getNextActionTowards g1 pi pj = getNextActionTowards g2 pi pj) ∧
    (∀ pi, isSafe g1 pi = isSafe g2 pi) ∧
    (∀ pi, getNearestSafePosition g1 pi = getNearestSafePosition g2 pi) ∧
    (∀ pi, findNearestBox g1 pi = findNearestBox g2 pi) := by
  refine ⟨fun pi => ?_, fun pi => ?_, fun pi pj => ?_, fun pi => ?_, fun pi => ?_, fun pi => ?_⟩
  · cases pi with
    | invalid => rfl
    | valid p => simpa using congrFun (isWalkableP_congr hf hb) p
  · cases pi with
    | invalid => rfl
    | valid p => simpa using congrFun (adjWalkP_congr hf hb) p
  · cases pi with
    | invalid => rfl
    | valid s =>
      cases pj with
      | invalid => rfl
      | valid t =>
        show (if s = t then _ else _) = (if s = t then _ else _)
        simp only [isWalkableP_congr hf hb, bfsFuel_congr hf,
          nextActionAux_congr hf hb]
  · cases pi with
    | invalid => rfl
    | valid p => simpa using congrFun (isSafeP_congr hf hb he) p
  · cases pi with
    | invalid => rfl
    | valid s =>
      show (if _ then _ else _) = (if _ then _ else _)
      have hst : safeTest g1 = safeTest g2 := by
        funext c; simp [safeTest, isSafeP_congr hf hb he]
      simp only [isWalkableP_congr hf hb, bfsFuel_congr hf,
        bfsFind_congr hf hb hst]
  · cases pi with
    | invalid => rfl
    | valid s =>
      show (if _ then _ else _) = (if _ then _ else _)
      have hbt : boxTest g1 = boxTest g2 := by
        funext c; simp [boxTest, inBounds_congr hf, cellAt_congr hf]
      simp only [isWalkableP_congr hf hb, bfsFuel_congr hf,
        bfsFind_congr hf hb hbt]

/-- A second concrete state: same field/bombs/explosions as `cexState`
but different player roster. -/
def cexState2 : GameState :=
  ⟨7, ⟨"p2", ⟨1, 1⟩, 1, 9⟩, [⟨"p3", ⟨0, 1⟩, 2, 4⟩], [⟨"p3", ⟨0, 1⟩, 2, 4⟩],
   ⟨2, 2, [[CellType.AIR, CellType.AIR], [CellType.AIR, CellType.AIR]]⟩, [], []⟩

/-- Witness for C10 at two concrete states that differ in `me`,
`opponents`, `players` and tick but share field, bombs and explosions. -/
theorem C10_witness :
    (cexState.field = cexState2.field ∧ cexState.bombs = cexState2.bombs ∧
      cexState.explosions = cexState2.explosions) ∧
    ((∀ pi, isWalkable cexState pi = isWalkable cexState2 pi) ∧
     (∀ pi, getAdjacentWalkablePositions cexState pi =
        getAdjacentWalkablePositions cexState2 pi) ∧
     (∀ pi pj, getNextActionTowards cexState pi pj =
        getNextActionTowards cexState2 pi pj) ∧
     (∀ pi, isSafe cexState pi = isSafe cexState2 pi) ∧
     (∀ pi, getNearestSafePosition cexState pi = getNearestSafePosition cexState2 pi) ∧
     (∀ pi, findNearestBox cexState pi = findNearestBox cexState2 pi)) :=
  ⟨⟨rfl, rfl, rfl⟩, C10_player_independence cexState cexState2 rfl rfl rfl⟩

/-! ## C1: safety and the imminent-bomb closure -/

/-- The spec's imminent-bomb set: the transitive closure of the bombs with
elapsed fuse under "bomb `b` sits inside imminent bomb `a`'s blast
footprint" (chain reaction). -/
inductive ImminentBomb (g : GameState) : Bomb → Prop where
  | base (b : Bomb) : b ∈ g.bombs → b.fuse ≤ 0 → ImminentBomb g b
  | chain (a b : Bomb) : ImminentBomb g a → b ∈ g.bombs →
      b.pos ∈ blastTilesOfPos g a.pos → ImminentBomb g b

lemma ImminentBomb.mem_bombs {g : GameState} {b : Bomb}
    (h : ImminentBomb g b) : b ∈ g.bombs := by
  cases h with
  | base b hb _ => exact hb
  | chain a b _ hb _ => exact hb

lemma ImminentBomb.exists_elapsed {g : GameState} {b : Bomb}
    (h : ImminentBomb g b) : ∃ b0 ∈ g.bombs, b0.fuse ≤ 0 := by
  induction h with
  | base b hb hf => exact ⟨b, hb, hf⟩
  | chain a b _ _ _ ih => exact ih

lemma self_mem_blastTilesOfPos (g : GameState) (p : Position) :
    p ∈ blastTilesOfPos g p := by
  simp [blastTilesOfPos]

lemma ImminentBomb.of_pos_eq {g : GameState} {a b : Bomb}
    (ha : ImminentBomb g a) (hb : b ∈ g.bombs) (hpos : b.pos = a.pos) :
    ImminentBomb g b :=
  ImminentBomb.chain a b ha hb (hpos ▸ self_mem_blastTilesOfPos g a.pos)

lemma bombAtKey_some {g : GameState} {k : Position} {tb : Bomb}
    (h : bombAtKey g k = some tb) : tb ∈ g.bombs ∧ tb.pos = k := by
  have hmem := List.find?_some h
  have hmem2 := List.mem_of_find?_eq_some h
  rw [List.mem_reverse] at hmem2
  simp only [decide_eq_true_eq] at hmem
  exact ⟨hmem2, hmem⟩

lemma bombAtKey_isSome_iff {g : GameState} {k : Position} :
    (bombAtKey g k).isSome = true ↔ ∃ b ∈ g.bombs, b.pos = k := by
  rw [bombAtKey, List.find?_isSome]
  constructor
  · rintro ⟨b, hb, hpos⟩
    simp only [decide_eq_true_eq] at hpos
    exact ⟨b, List.mem_reverse.mp hb, hpos⟩
  · rintro ⟨b, hb, hpos⟩
    exact ⟨b, List.mem_reverse.mpr hb, by simp [hpos]⟩

/-- Effect of the inner trigger loop on the key set: the final keys are
the old ones plus, in order, the fresh scanned tiles that hold a bomb. -/
lemma triggerScan_keys (g : GameState) (tiles : List Position) :
    ∀ keys, ∃ added, (triggerScan g tiles keys).1 = keys ++ added ∧
      added.Nodup ∧
      (∀ k ∈ added, k ∉ keys ∧ (bombAtKey g k).isSome = true ∧ k ∈ tiles) ∧
      added.length = (triggerScan g tiles keys).2.length ∧
      (∀ k ∈ added, ∃ nb ∈ (triggerScan g tiles keys).2, nb.pos = k) := by
  induction tiles with
  | nil =>
    intro keys
    exact ⟨[], by simp [triggerScan], List.nodup_nil, by simp, by simp [triggerScan], by simp⟩
  | cons k0 rest ih =>
    intro keys
    rw [triggerScan]
    cases hbk : bombAtKey g k0 with
    | none =>
      dsimp only
      obtain ⟨added, h1, h2, h3, h4, h5⟩ := ih keys
      refine ⟨added, h1, h2, fun k' hk' => ⟨(h3 k' hk').1, (h3 k' hk').2.1,
        List.mem_cons_of_mem _ (h3 k' hk').2.2⟩, h4, h5⟩
    | some tb =>
      dsimp only
      by_cases hmem : k0 ∈ keys
      · rw [if_pos hmem]
        obtain ⟨added, h1, h2, h3, h4, h5⟩ := ih keys
        refine ⟨added, h1, h2, fun k' hk' => ⟨(h3 k' hk').1, (h3 k' hk').2.1,
          List.mem_cons_of_mem _ (h3 k' hk').2.2⟩, h4, h5⟩
      · rw [if_neg hmem]
        obtain ⟨added, h1, h2, h3, h4, h5⟩ := ih (keys ++ [k0])
        refine ⟨k0 :: added, ?_, ?_, ?_, ?_, ?_⟩
        · simp only [h1, List.append_assoc, List.singleton_append]
        · refine List.nodup_cons.mpr ⟨?_, h2⟩
          intro hk0
          exact (h3 k0 hk0).1 (List.mem_append_right keys (List.mem_singleton.mpr rfl))
        · intro k' hk'
          rcases List.mem_cons.mp hk' with rfl | hk'
          · exact ⟨hmem, by simp [hbk], List.mem_cons_self _ _⟩
          · obtain ⟨hn, hs, ht⟩ := h3 k' hk'
            refine ⟨fun hc => hn (List.mem_append_left _ hc), hs,
              List.mem_cons_of_mem _ ht⟩
        · simpa using h4
        · intro k' hk'
          rcases List.mem_cons.mp hk' with rfl | hk'
          · exact ⟨tb, List.mem_cons_self _ _, (bombAtKey_some hbk).2⟩
          · obtain ⟨nb, hnb, hnp⟩ := h5 k' hk'
            exact ⟨nb, List.mem_cons_of_mem _ hnb, hnp⟩

/-- Key membership after the inner trigger loop. -/
lemma mem_triggerScan_keys (g : GameState) (tiles : List Position) :
    ∀ keys k, k ∈ (triggerScan g tiles keys).1 ↔
      k ∈ keys ∨ (k ∈ tiles ∧ (bombAtKey g k).isSome = true) := by
  induction tiles with
  | nil => intro keys k; simp [triggerScan]
  | cons k0 rest ih =>
    intro keys k
    rw [triggerScan]
    cases hbk : bombAtKey g k0 with
    | none =>
      dsimp only
      rw [ih]
      constructor
      · rintro (h | ⟨ht, hs⟩)
        · exact Or.inl h
        · exact Or.inr ⟨List.mem_cons_of_mem _ ht, hs⟩
      · rintro (h | ⟨ht, hs⟩)
        · exact Or.inl h
        · rcases List.mem_cons.mp ht with rfl | ht
          · rw [hbk] at hs; simp at hs
          · exact Or.inr ⟨ht, hs⟩
    | some tb =>
      dsimp only
      by_cases hmem : k0 ∈ keys
      · rw [if_pos hmem, ih]
        constructor
        · rintro (h | ⟨ht, hs⟩)
          · exact Or.inl h
          · exact Or.inr ⟨List.mem_cons_of_mem _ ht, hs⟩
        · rintro (h | ⟨ht, hs⟩)
          · exact Or.inl h
          · rcases List.mem_cons.mp ht with rfl | ht
            · exact Or.inl hmem
            · exact Or.inr ⟨ht, hs⟩
      · rw [if_neg hmem]
        show k ∈ (triggerScan g rest (keys ++ [k0])).1 ↔ _
        rw [ih]
        constructor
        · rintro (h | ⟨ht, hs⟩)
          · rcases List.mem_append.mp h with h | h
            · exact Or.inl h
            · rw [List.mem_singleton] at h
              subst h
              exact Or.inr ⟨List.mem_cons_self _ _, by simp [hbk]⟩
          · exact Or.inr ⟨List.mem_cons_of_mem _ ht, hs⟩
        · rintro (h | ⟨ht, hs⟩)
          · exact Or.inl (List.mem_append_left _ h)
          · rcases List.mem_cons.mp ht with rfl | ht
            · exact Or.inl (List.mem_append_right _ (List.mem_singleton.mpr rfl))
            · exact Or.inr ⟨ht, hs⟩

/-- Every bomb enqueued by the inner trigger loop was found at one of the
scanned tiles. -/
lemma triggerScan_bombs (g : GameState) (tiles : List Position) :
    ∀ keys nb, nb ∈ (triggerScan g tiles keys).2 →
      ∃ k ∈ tiles, bombAtKey g k = some nb := by
  induction tiles with
  | nil => intro keys nb h; simp [triggerScan] at h
  | cons k0 rest ih =>
    intro keys nb h
    rw [triggerScan] at h
    cases hbk : bombAtKey g k0 with
    | none =>
      rw [hbk] at h
      dsimp only at h
      obtain ⟨k, hk, hfind⟩ := ih keys nb h
      exact ⟨k, List.mem_cons_of_mem _ hk, hfind⟩
    | some tb =>
      rw [hbk] at h
      dsimp only at h
      by_cases hmem : k0 ∈ keys
      · rw [if_pos hmem] at h
        obtain ⟨k, hk, hfind⟩ := ih keys nb h
        exact ⟨k, List.mem_cons_of_mem _ hk, hfind⟩
      · rw [if_neg hmem] at h
        rcases List.mem_cons.mp h with rfl | h
        · exact ⟨k0, List.mem_cons_self _ _, hbk⟩
        · obtain ⟨k, hk, hfind⟩ := ih (keys ++ [k0]) nb h
          exact ⟨k, List.mem_cons_of_mem _ hk, hfind⟩

/-- The distinct bomb positions of the state, as a finite set (the measure
of the worklist loop). -/
def bombPosF (g : GameState) : Finset Position :=
  (g.bombs.map (fun b => b.pos)).toFinset

/-- Worklist invariant proof for `imminentAux`: given sound, covered,
sufficiently fueled state, the final key list is monotone over the input,
sound for `ImminentBomb`, and saturated under blast propagation. -/
lemma imminentAux_spec (g : GameState) :
    ∀ (fuel : Nat) (queue : List Bomb) (keys : List Position),
    fuel ≥ queue.length + (bombPosF g \ keys.toFinset).card →
    (∀ b ∈ queue, ImminentBomb g b) →
    (∀ k ∈ keys, ∃ b, ImminentBomb g b ∧ b.pos = k) →
    (∀ k ∈ keys, (∃ b ∈ queue, b.pos = k) ∨
      (∀ bb ∈ g.bombs, bb.pos ∈ blastTilesOfPos g k → bb.pos ∈ keys)) →
    (∀ k ∈ keys, k ∈ imminentAux g fuel queue keys) ∧
    (∀ k ∈ imminentAux g fuel queue keys, ∃ b, ImminentBomb g b ∧ b.pos = k) ∧
    (∀ k ∈ imminentAux g fuel queue keys, ∀ bb ∈ g.bombs,
      bb.pos ∈ blastTilesOfPos g k → bb.pos ∈ imminentAux g fuel queue keys) := by
  intro fuel
  induction fuel with
  | zero =>
    intro queue keys hfuel hqs hks hcov
    have hq : queue = [] := by
      cases queue with
      | nil => rfl
      | cons b rest => simp at hfuel
    subst hq
    refine ⟨fun k hk => hk, hks, ?_⟩
    intro k hk bb hbb hblast
    rcases hcov k hk with ⟨b, hb, _⟩ | hsat
    · exact absurd hb (List.not_mem_nil b)
    · exact hsat bb hbb hblast
  | succ n ih =>
    intro queue keys hfuel hqs hks hcov
    cases queue with
    | nil =>
      refine ⟨fun k hk => hk, hks, ?_⟩
      intro k hk bb hbb hblast
      rcases hcov k hk with ⟨b, hb, _⟩ | hsat
      · exact absurd hb (List.not_mem_nil b)
      · exact hsat bb hbb hblast
    | cons b rest =>
      rw [imminentAux]
      obtain ⟨added, hkeys', hnd, hfresh, hlen, haddednb⟩ :=
        triggerScan_keys g (blastTilesOfPos g b.pos) keys
      have hbimm : ImminentBomb g b := hqs b (List.mem_cons_self _ _)
      -- fuel bookkeeping
      have haddsub : added.toFinset ⊆ bombPosF g \ keys.toFinset := by
        intro k hk
        rw [List.mem_toFinset] at hk
        obtain ⟨hn, hs, _⟩ := hfresh k hk
        rw [Finset.mem_sdiff, List.mem_toFinset]
        refine ⟨?_, hn⟩
        obtain ⟨bb, hbb, hbp⟩ := bombAtKey_isSome_iff.mp hs
        rw [bombPosF, List.mem_toFinset]
        exact List.mem_map.mpr ⟨bb, hbb, hbp⟩
      have hcard : (bombPosF g \ (triggerScan g (blastTilesOfPos g b.pos) keys).1.toFinset).card
          = (bombPosF g \ keys.toFinset).card - added.length := by
        rw [hkeys', List.toFinset_append]
        have : bombPosF g \ (keys.toFinset ∪ added.toFinset)
            = (bombPosF g \ keys.toFinset) \ added.toFinset := by
          ext x
          simp only [Finset.mem_sdiff, Finset.mem_union]
          tauto
        rw [this, Finset.card_sdiff haddsub, List.toFinset_card_of_nodup hnd]
      have haddcard : added.length ≤ (bombPosF g \ keys.toFinset).card := by
        calc added.length = added.toFinset.card := (List.toFinset_card_of_nodup hnd).symm
          _ ≤ _ := Finset.card_le_card haddsub
      have hfuel' : n ≥ (rest ++ (triggerScan g (blastTilesOfPos g b.pos) keys).2).length +
          (bombPosF g \ (triggerScan g (blastTilesOfPos g b.pos) keys).1.toFinset).card := by
        rw [hcard, List.length_append, ← hlen]
        simp only [List.length_cons] at hfuel
        omega
      have hqs' : ∀ b' ∈ rest ++ (triggerScan g (blastTilesOfPos g b.pos) keys).2,
          ImminentBomb g b' := by
        intro b' hb'
        rcases List.mem_append.mp hb' with hb' | hb'
        · exact hqs b' (List.mem_cons_of_mem _ hb')
        · obtain ⟨k, hk, hfind⟩ := triggerScan_bombs g _ keys b' hb'
          obtain ⟨hbmem, hbp⟩ := bombAtKey_some hfind
          exact ImminentBomb.chain b b' hbimm hbmem (hbp ▸ hk)
      have hks' : ∀ k ∈ (triggerScan g (blastTilesOfPos g b.pos) keys).1,
          ∃ bb, ImminentBomb g bb ∧ bb.pos = k := by
        intro k hk
        rw [hkeys'] at hk
        rcases List.mem_append.mp hk with hk | hk
        · exact hks k hk
        · obtain ⟨hn, hs, ht⟩ := hfresh k hk
          obtain ⟨bb, hbb, hbp⟩ := bombAtKey_isSome_iff.mp hs
          exact ⟨bb, ImminentBomb.chain b bb hbimm hbb (hbp ▸ ht), hbp⟩
      have hcov' : ∀ k ∈ (triggerScan g (blastTilesOfPos g b.pos) keys).1,
          (∃ bb ∈ rest ++ (triggerScan g (blastTilesOfPos g b.pos) keys).2, bb.pos = k) ∨
          (∀ bb ∈ g.bombs, bb.pos ∈ blastTilesOfPos g k →
            bb.pos ∈ (triggerScan g (blastTilesOfPos g b.pos) keys).1) := by
        intro k hk
        have hsat_bpos : ∀ bb ∈ g.bombs, bb.pos ∈ blastTilesOfPos g b.pos →
            bb.pos ∈ (triggerScan g (blastTilesOfPos g b.pos) keys).1 := by
          intro bb hbb hblast
          rw [mem_triggerScan_keys]
          exact Or.inr ⟨hblast, bombAtKey_isSome_iff.mpr ⟨bb, hbb, rfl⟩⟩
        rw [hkeys'] at hk
        rcases List.mem_append.mp hk with hk | hk
        · rcases hcov k hk with ⟨b', hb', hbp⟩ | hsat
          · rcases List.mem_cons.mp hb' with rfl | hb'
            · right
              subst hbp
              exact hsat_bpos
            · exact Or.inl ⟨b', List.mem_append_left _ hb', hbp⟩
          · right
            intro bb hbb hblast
            rw [hkeys']
            exact List.mem_append_left _ (hsat bb hbb hblast)
        · obtain ⟨nb, hnb, hnp⟩ := haddednb k hk
          exact Or.inl ⟨nb, List.mem_append_right _ hnb, hnp⟩
      obtain ⟨hmono, hsound, hsat⟩ := ih _ _ hfuel' hqs' hks' hcov'
      refine ⟨?_, hsound, hsat⟩
      intro k hk
      apply hmono
      rw [hkeys']
      exact List.mem_append_left _ hk

/-- The worklist computes exactly the declarative closure: a position is
an exploding key iff it is the position of some imminent bomb. -/
lemma mem_imminentKeys_iff (g : GameState) (p : Position) :
    p ∈ imminentKeys g ↔ ∃ b, ImminentBomb g b ∧ b.pos = p := by
  rw [imminentKeys]
  have hspec := imminentAux_spec g (2 * g.bombs.length + 1)
    (g.bombs.filter (fun b => decide (b.fuse ≤ 0)))
    ((g.bombs.filter (fun b => decide (b.fuse ≤ 0))).map (fun b => b.pos))
    (by
      have h1 : (g.bombs.filter (fun b => decide (b.fuse ≤ 0))).length ≤ g.bombs.length :=
        List.length_filter_le _ _
      have h2 : (bombPosF g).card ≤ g.bombs.length := by
        calc (bombPosF g).card ≤ (g.bombs.map (fun b => b.pos)).length :=
              List.toFinset_card_le _
          _ = g.bombs.length := List.length_map _ _
      have h3 : (bombPosF g \ ((g.bombs.filter (fun b => decide (b.fuse ≤ 0))).map
          (fun b => b.pos)).toFinset).card ≤ (bombPosF g).card :=
        Finset.card_le_card (Finset.sdiff_subset)
      omega)
    (by
      intro b hb
      rw [List.mem_filter, decide_eq_true_eq] at hb
      exact ImminentBomb.base b hb.1 hb.2)
    (by
      intro k hk
      obtain ⟨b, hb, hbp⟩ := List.mem_map.mp hk
      rw [List.mem_filter, decide_eq_true_eq] at hb
      exact ⟨b, ImminentBomb.base b hb.1 hb.2, hbp⟩)
    (by
      intro k hk
      obtain ⟨b, hb, hbp⟩ := List.mem_map.mp hk
      exact Or.inl ⟨b, hb, hbp⟩)
  constructor
  · exact fun h => hspec.2.1 p h
  · rintro ⟨b, hb, rfl⟩
    induction hb with
    | base b0 hb0 hf0 =>
      apply hspec.1
      exact List.mem_map.mpr ⟨b0, List.mem_filter.mpr ⟨hb0, by simpa using hf0⟩, rfl⟩
    | chain a b0 ha hb0 hblast iha =>
      exact hspec.2.2 a.pos iha b0 hb0 hblast

lemma mem_getBlastTiles_iff (g : GameState) (bombs : List Bomb) (p : Position) :
    p ∈ getBlastTiles g bombs ↔ ∃ b ∈ bombs, p ∈ blastTilesOfPos g b.pos := by
  simp [getBlastTiles, List.mem_flatMap]

/-- The unsafe-blast region computed by the code (blast tiles of the
worklist's imminent bombs) is exactly the union of the blast footprints of
the declaratively imminent bombs. -/
lemma mem_imminent_blast_iff (g : GameState) (p : Position) :
    p ∈ getBlastTiles g (getImminentExplosionBombs g) ↔
      ∃ b, ImminentBomb g b ∧ p ∈ blastTilesOfPos g b.pos := by
  rw [mem_getBlastTiles_iff, getImminentExplosionBombs]
  by_cases hempty : (g.bombs.filter (fun b => decide (b.fuse ≤ 0))).isEmpty
  · rw [if_pos hempty]
    simp only [List.not_mem_nil, false_and, exists_false, false_iff]
    rintro ⟨b, hb, hblast⟩
    obtain ⟨b0, hb0, hf0⟩ := hb.exists_elapsed
    rw [List.isEmpty_iff] at hempty
    have : b0 ∈ g.bombs.filter (fun b => decide (b.fuse ≤ 0)) :=
      List.mem_filter.mpr ⟨hb0, by simpa using hf0⟩
    rw [hempty] at this
    exact absurd this (List.not_mem_nil b0)
  · rw [if_neg hempty]
    constructor
    · rintro ⟨b, hb, hblast⟩
      rw [List.mem_filter, decide_eq_true_eq] at hb
      obtain ⟨hbmem, hbkey⟩ := hb
      obtain ⟨a, ha, hap⟩ := (mem_imminentKeys_iff g b.pos).mp hbkey
      exact ⟨b, ha.of_pos_eq hbmem hap.symm, hblast⟩
    · rintro ⟨b, hb, hblast⟩
      refine ⟨b, List.mem_filter.mpr ⟨hb.mem_bombs, ?_⟩, hblast⟩
      rw [decide_eq_true_eq, mem_imminentKeys_iff]
      exact ⟨b, hb, rfl⟩

/-- C1: for every valid position, `isSafe` is true iff the position is in
bounds, coincides with no active explosion tile and no bomb tile, and lies
outside the blast footprint of every bomb in the imminent set — the
transitive closure of the elapsed-fuse bombs under chain reaction (bombs
with positive fuse never reached by the closure contribute nothing); every
invalid or out-of-bounds input yields false. -/
theorem C1_isSafe_characterization (g : GameState) (p : Position) :
    (isSafe g (.valid p) = true ↔
      inBounds g p = true ∧ (¬ ∃ e ∈ g.explosions, e = p) ∧
      (¬ ∃ b ∈ g.bombs, b.pos = p) ∧
      ¬ ∃ b, ImminentBomb g b ∧ p ∈ blastTilesOfPos g b.pos) ∧
    isSafe g .invalid = false ∧
    (inBounds g p = false → isSafe g (.valid p) = false) := by
  have hchar : isSafe g (.valid p) = true ↔
      inBounds g p = true ∧ (¬ ∃ e ∈ g.explosions, e = p) ∧
      (¬ ∃ b ∈ g.bombs, b.pos = p) ∧
      ¬ ∃ b, ImminentBomb g b ∧ p ∈ blastTilesOfPos g b.pos := by
    show isSafeP g p = true ↔ _
    rw [isSafeP]
    simp only [Bool.and_eq_true, Bool.not_eq_true', List.any_eq_false,
      decide_eq_false_iff_not, decide_eq_true_eq]
    rw [← mem_imminent_blast_iff]
    constructor
    · rintro ⟨⟨⟨hin, hexp⟩, hbmb⟩, hblast⟩
      refine ⟨hin, ?_, ?_, ?_⟩
      · rintro ⟨e, he, rfl⟩; exact hexp e he rfl
      · rintro ⟨b, hb, hbp⟩; exact hbmb b hb hbp
      · intro hmem; exact hblast p hmem rfl
    · rintro ⟨hin, hexp, hbmb, hblast⟩
      refine ⟨⟨⟨hin, ?_⟩, ?_⟩, ?_⟩
      · intro e he hep; exact hexp ⟨e, he, hep⟩
      · intro b hb hbp; exact hbmb ⟨b, hb, hbp⟩
      · rintro t ht rfl; exact hblast ht
  refine ⟨hchar, rfl, ?_⟩
  intro hout
  rw [Bool.eq_false_iff]
  intro htrue
  rw [hchar] at htrue
  rw [htrue.1] at hout
  cases hout

/-! ## Breadth-first search: spec-side graph notions -/

/-- Reachability in exactly `n` steps along the walkable-neighbour graph
(edges given by `getAdjacentWalkablePositions`, unit cost). -/
inductive ReachN (g : GameState) : Nat → Position → Position → Prop where
  | refl (p : Position) : ReachN g 0 p p
  | tail {n : Nat} {p q r : Position} :
      ReachN g n p q → r ∈ adjWalkP g q → ReachN g (n + 1) p r

/-- Reachability in the walkable-tile graph. -/
def Reachable (g : GameState) (s t : Position) : Prop := ∃ n, ReachN g n s t

/-- `n` is the exact shortest-path distance from `s` to `t`. -/
def DistIs (g : GameState) (s t : Position) (n : Nat) : Prop :=
  ReachN g n s t ∧ ∀ m, ReachN g m s t → n ≤ m

lemma reachN_zero_iff {g : GameState} {p q : Position} :
    ReachN g 0 p q ↔ p = q := by
  constructor
  · intro h
    cases h
    rfl
  · rintro rfl
    exact ReachN.refl p

lemma reachN_succ_iff {g : GameState} {n : Nat} {p r : Position} :
    ReachN g (n + 1) p r ↔ ∃ q, ReachN g n p q ∧ r ∈ adjWalkP g q := by
  constructor
  · intro h
    cases h with
    | tail h1 h2 => exact ⟨_, h1, h2⟩
  · rintro ⟨q, h1, h2⟩
    exact ReachN.tail h1 h2

lemma reachN_head_decomp {g : GameState} {s r : Position} :
    ∀ {n : Nat}, ReachN g (n + 1) s r → ∃ q ∈ adjWalkP g s, ReachN g n q r := by
  intro n
  induction n generalizing r with
  | zero =>
    intro h
    rcases reachN_succ_iff.mp h with ⟨q, hq, hr⟩
    have he := reachN_zero_iff.mp hq
    subst he
    exact ⟨r, hr, ReachN.refl r⟩
  | succ m ih =>
    intro h
    rcases reachN_succ_iff.mp h with ⟨q, hq, hr⟩
    obtain ⟨w, hw, hwq⟩ := ih hq
    exact ⟨w, hw, ReachN.tail hwq hr⟩

lemma reachN_cons_head {g : GameState} {s q : Position} :
    ∀ {n : Nat} {t : Position}, q ∈ adjWalkP g s → ReachN g n q t →
      ReachN g (n + 1) s t := by
  intro n
  induction n with
  | zero =>
    intro t hq h
    have he := reachN_zero_iff.mp h
    subst he
    exact ReachN.tail (ReachN.refl s) hq
  | succ m ih =>
    intro t hq h
    rcases reachN_succ_iff.mp h with ⟨w, hw, ht⟩
    exact ReachN.tail (ih hq hw) ht

lemma mem_adjWalkP_iff {g : GameState} {p q : Position} :
    q ∈ adjWalkP g p ↔ q ∈ neighborsOf p ∧ isWalkableP g q = true := by
  simp [adjWalkP, List.mem_filter]

lemma walkable_of_mem_adjWalkP {g : GameState} {p q : Position}
    (h : q ∈ adjWalkP g p) : isWalkableP g q = true :=
  (mem_adjWalkP_iff.mp h).2

lemma reachN_walkable {g : GameState} {s p : Position} {n : Nat}
    (hs : isWalkableP g s = true) (h : ReachN g n s p) :
    isWalkableP g p = true := by
  induction h with
  | refl p => exact hs
  | tail h1 h2 ih => exact walkable_of_mem_adjWalkP h2

lemma distIs_unique {g : GameState} {s t : Position} {n m : Nat}
    (hn : DistIs g s t n) (hm : DistIs g s t m) : n = m :=
  le_antisymm (hn.2 m hm.1) (hm.2 n hn.1)

lemma Reachable.exists_distIs {g : GameState} {s t : Position}
    (h : Reachable g s t) : ∃ d, DistIs g s t d := by
  haveI : DecidablePred fun m => ReachN g m s t := Classical.decPred _
  exact ⟨Nat.find h, Nat.find_spec h, fun m hm => Nat.find_min' h hm⟩

lemma distIs_zero_self (g : GameState) (s : Position) : DistIs g s s 0 :=
  ⟨ReachN.refl s, fun m _ => Nat.zero_le m⟩

lemma distIs_self_eq_zero {g : GameState} {s : Position} {k : Nat}
    (h : DistIs g s s k) : k = 0 :=
  distIs_unique h (distIs_zero_self g s)

lemma distIs_pos_of_ne {g : GameState} {s t : Position} {d : Nat}
    (h : DistIs g s t d) (hne : s ≠ t) : 1 ≤ d := by
  rcases Nat.eq_zero_or_pos d with rfl | hd
  · exact absurd (reachN_zero_iff.mp h.1) hne
  · exact hd

lemma distIs_le_succ_of_adj {g : GameState} {s c t : Position} {k dt : Nat}
    (hc : DistIs g s c k) (ht : t ∈ adjWalkP g c) (hdt : DistIs g s t dt) :
    dt ≤ k + 1 :=
  hdt.2 (k + 1) (ReachN.tail hc.1 ht)

lemma distIs_pred {g : GameState} {s t : Position} {k : Nat}
    (h : DistIs g s t (k + 1)) : ∃ u, DistIs g s u k ∧ t ∈ adjWalkP g u := by
  rcases reachN_succ_iff.mp h.1 with ⟨u, hu, ht⟩
  obtain ⟨du, hdu⟩ := Reachable.exists_distIs ⟨k, hu⟩
  have hle : du ≤ k := hdu.2 k hu
  have hge : k ≤ du := by
    have := h.2 (du + 1) (ReachN.tail hdu.1 ht)
    omega
  have : du = k := le_antisymm hle hge
  subst this
  exact ⟨u, hdu, ht⟩

/-! ## Breadth-first search: finiteness of the search space -/

/-- Both coordinates of `p` differ from those of `s` by integers. -/
def IntOff (s p : Position) : Prop :=
  (∃ a : Int, p.x = s.x + (a : Rat)) ∧ (∃ b : Int, p.y = s.y + (b : Rat))

lemma intOff_refl (s : Position) : IntOff s s :=
  ⟨⟨0, by simp⟩, ⟨0, by simp⟩⟩

lemma intOff_of_mem_neighbors {s p q : Position}
    (hsp : IntOff s p) (h : q ∈ neighborsOf p) : IntOff s q := by
  obtain ⟨⟨a, ha⟩, ⟨b, hb⟩⟩ := hsp
  simp only [neighborsOf, List.mem_cons, List.mem_singleton, List.not_mem_nil,
    or_false] at h
  rcases h with rfl | rfl | rfl | rfl
  · exact ⟨⟨a, ha⟩, ⟨b - 1, by rw [hb]; push_cast; ring⟩⟩
  · exact ⟨⟨a + 1, by rw [ha]; push_cast; ring⟩, ⟨b, hb⟩⟩
  · exact ⟨⟨a, ha⟩, ⟨b + 1, by rw [hb]; push_cast; ring⟩⟩
  · exact ⟨⟨a - 1, by rw [ha]; push_cast; ring⟩, ⟨b, hb⟩⟩

/-- All positions a search from `s` can ever enqueue: in-bounds positions
at integral offsets from `s`. -/
def allowedF (g : GameState) (s : Position) : Finset Position :=
  ((Finset.Ioo (-g.field.width) g.field.width) ×ˢ
    (Finset.Ioo (-g.field.height) g.field.height)).image
    (fun d : Int × Int => ⟨s.x + (d.1 : Rat), s.y + (d.2 : Rat)⟩)

lemma walkable_inBounds {g : GameState} {p : Position}
    (h : isWalkableP g p = true) : inBounds g p = true := by
  rw [isWalkableP] at h
  simp only [Bool.and_eq_true] at h
  exact h.1.1.1

lemma inBounds_iff {g : GameState} {p : Position} :
    inBounds g p = true ↔ 0 ≤ p.x ∧ 0 ≤ p.y ∧
      p.x < (g.field.width : Rat) ∧ p.y < (g.field.height : Rat) := by
  rw [inBounds]
  simp only [Bool.and_eq_true, decide_eq_true_eq]
  tauto

lemma mem_allowedF {g : GameState} {s p : Position}
    (hs : inBounds g s = true) (hp : inBounds g p = true)
    (hoff : IntOff s p) : p ∈ allowedF g s := by
  obtain ⟨⟨a, ha⟩, ⟨b, hb⟩⟩ := hoff
  obtain ⟨hsx, hsy, hsxw, hsyh⟩ := inBounds_iff.mp hs
  obtain ⟨hpx, hpy, hpxw, hpyh⟩ := inBounds_iff.mp hp
  rw [allowedF, Finset.mem_image]
  refine ⟨(a, b), ?_, ?_⟩
  · rw [Finset.mem_product, Finset.mem_Ioo, Finset.mem_Ioo]
    constructor
    · constructor
      · have : -(g.field.width : Rat) < (a : Rat) := by rw [ha] at hpx; linarith
        exact_mod_cast this
      · have : (a : Rat) < (g.field.width : Rat) := by rw [ha] at hpxw; linarith
        exact_mod_cast this
    · constructor
      · have : -(g.field.height : Rat) < (b : Rat) := by rw [hb] at hpy; linarith
        exact_mod_cast this
      · have : (b : Rat) < (g.field.height : Rat) := by rw [hb] at hpyh; linarith
        exact_mod_cast this
  · cases p
    simp only [Position.mk.injEq]
    exact ⟨ha.symm, hb.symm⟩

lemma card_allowedF_le (g : GameState) (s : Position) :
    (allowedF g s).card ≤
      (2 * g.field.width.toNat + 1) * (2 * g.field.height.toNat + 1) := by
  calc (allowedF g s).card
      ≤ ((Finset.Ioo (-g.field.width) g.field.width) ×ˢ
          (Finset.Ioo (-g.field.height) g.field.height)).card :=
        Finset.card_image_le
    _ = (Finset.Ioo (-g.field.width) g.field.width).card *
          (Finset.Ioo (-g.field.height) g.field.height).card :=
        Finset.card_product _ _
    _ ≤ (2 * g.field.width.toNat + 1) * (2 * g.field.height.toNat + 1) := by
        apply Nat.mul_le_mul
        · rw [Int.card_Ioo]
          omega
        · rw [Int.card_Ioo]
          omega

lemma bfsFuel_ge (g : GameState) (s : Position) :
    bfsFuel g ≥ 1 + (allowedF g s).card := by
  rw [bfsFuel]
  have := card_allowedF_le g s
  omega

/-! ## Breadth-first search: the loop invariant -/

lemma neighborsOf_nodup (p : Position) : (neighborsOf p).Nodup := by
  have hx : ∀ (a b c d : Rat), a ≠ c → (Position.mk a b) ≠ (Position.mk c d) := by
    intro a b c d h hc
    rw [Position.mk.injEq] at hc
    exact h hc.1
  have hy : ∀ (a b c d : Rat), b ≠ d → (Position.mk a b) ≠ (Position.mk c d) := by
    intro a b c d h hc
    rw [Position.mk.injEq] at hc
    exact h hc.2
  rw [neighborsOf]
  refine List.nodup_cons.mpr ⟨?_, List.nodup_cons.mpr ⟨?_,
    List.nodup_cons.mpr ⟨?_, List.nodup_singleton _⟩⟩⟩
  · simp only [List.mem_cons, List.mem_singleton, List.not_mem_nil, or_false, not_or]
    refine ⟨hx _ _ _ _ ?_, hy _ _ _ _ ?_, hx _ _ _ _ ?_⟩ <;> intro h <;> linarith
  · simp only [List.mem_cons, List.mem_singleton, List.not_mem_nil, or_false, not_or]
    refine ⟨hx _ _ _ _ ?_, hx _ _ _ _ ?_⟩ <;> intro h <;> linarith
  · simp only [List.mem_singleton, List.not_mem_nil, or_false]
    refine hx _ _ _ _ ?_
    intro h
    linarith

lemma adjWalkP_nodup (g : GameState) (p : Position) : (adjWalkP g p).Nodup :=
  (neighborsOf_nodup p).filter _

/-- The invariant shared by the engine's breadth-first searches:
`processed` is the dequeue history in order, `queue` the current queue,
and `processed ++ queue` the discovery order of all visited nodes.  The
`levels` component says the queue splits into a block at distance `k`
followed by a block at distance `k + 1`, and that every node at distance
at most `k` has been discovered. -/
structure BfsInv (g : GameState) (s : Position) (processed queue : List Position) : Prop where
  nodup : (processed ++ queue).Nodup
  walk : ∀ p ∈ processed ++ queue, isWalkableP g p = true
  intoff : ∀ p ∈ processed ++ queue, IntOff s p
  closed : ∀ p ∈ processed, ∀ q ∈ adjWalkP g p, q ∈ processed ++ queue
  levels : ∃ (k : Nat) (A B : List Position), queue = A ++ B ∧
    (queue ≠ [] → A ≠ []) ∧
    (∀ p ∈ A, DistIs g s p k) ∧
    (∀ p ∈ B, DistIs g s p (k + 1)) ∧
    (∀ p d, DistIs g s p d → d ≤ k → p ∈ processed ++ queue)

lemma BfsInv.initial (g : GameState) (s : Position)
    (hs : isWalkableP g s = true) : BfsInv g s [] [s] := by
  refine ⟨by simp, ?_, ?_, by simp, 0, [s], [], rfl, fun _ => by simp, ?_, by simp, ?_⟩
  · intro p hp
    simp only [List.nil_append, List.mem_singleton] at hp
    subst hp
    exact hs
  · intro p hp
    simp only [List.nil_append, List.mem_singleton] at hp
    subst hp
    exact intOff_refl _
  · intro p hp
    simp only [List.mem_singleton] at hp
    subst hp
    exact distIs_zero_self g _
  · intro p d hd hd0
    interval_cases d
    have := reachN_zero_iff.mp hd.1
    simp [← this]

lemma BfsInv.start_mem {g : GameState} {s : Position} {processed queue : List Position}
    (inv : BfsInv g s processed queue) : s ∈ processed ++ queue := by
  obtain ⟨k, A, B, hq, hne, hA, hB, hcover⟩ := inv.levels
  exact hcover s 0 (distIs_zero_self g s) (Nat.zero_le k)

/-- The head of the queue has minimal distance among all not-yet-processed
reachable nodes. -/
lemma BfsInv.dequeue_min {g : GameState} {s : Position}
    {processed rest : List Position} {c : Position}
    (inv : BfsInv g s processed (c :: rest)) :
    ∃ k, DistIs g s c k ∧
      ∀ u du, DistIs g s u du → u ∉ processed → k ≤ du := by
  obtain ⟨k, A, B, hq, hne, hA, hB, hcover⟩ := inv.levels
  have hAne : A ≠ [] := hne (List.cons_ne_nil c rest)
  cases A with
  | nil => exact absurd rfl hAne
  | cons a A' =>
    rw [List.cons_append] at hq
    injection hq with h1 h2
    subst h1
    refine ⟨k, hA c (List.mem_cons_self c A'), ?_⟩
    intro u du hdu hup
    by_contra hlt
    push_neg at hlt
    have humem : u ∈ processed ++ (c :: rest) :=
      hcover u du hdu (Nat.le_of_lt hlt)
    rcases List.mem_append.mp humem with h | h
    · exact hup h
    · rw [h2] at h
      rcases List.mem_cons.mp h with rfl | h
      · exact absurd (distIs_unique hdu (hA u (List.mem_cons_self u A'))) (by omega)
      · rcases List.mem_append.mp h with h | h
        · have := distIs_unique hdu (hA u (List.mem_cons_of_mem _ h))
          omega
        · have := distIs_unique hdu (hB u h)
          omega

/-- When the queue is empty every reachable node has been processed. -/
lemma BfsInv.complete {g : GameState} {s : Position} {processed : List Position}
    (inv : BfsInv g s processed []) :
    ∀ {n : Nat} {u : Position}, ReachN g n s u → u ∈ processed := by
  intro n
  induction n with
  | zero =>
    intro u h
    have he := reachN_zero_iff.mp h
    subst he
    have := inv.start_mem
    simpa using this
  | succ m ih =>
    intro u h
    rcases reachN_succ_iff.mp h with ⟨q, hq, hu⟩
    have := inv.closed q (ih hq) u hu
    simpa using this

/-- One dequeue-and-expand step preserves the invariant: the dequeued head
moves to `processed` and its fresh walkable neighbours are enqueued. -/
lemma BfsInv.step {g : GameState} {s : Position}
    {processed rest : List Position} {c : Position}
    (inv : BfsInv g s processed (c :: rest)) :
    BfsInv g s (processed ++ [c])
      (rest ++ (adjWalkP g c).filter
        (fun p => decide (¬ p ∈ processed ++ c :: rest))) := by
  set V := processed ++ c :: rest with hV
  set news := (adjWalkP g c).filter (fun p => decide (¬ p ∈ V)) with hnews
  have hmemnews : ∀ q, q ∈ news ↔ q ∈ adjWalkP g c ∧ q ∉ V := by
    intro q
    rw [hnews, List.mem_filter]
    simp
  have hnodupnews : news.Nodup := (adjWalkP_nodup g c).filter _
  have hcmem : c ∈ V := by simp [hV]
  have hshape : (processed ++ [c]) ++ (rest ++ news) = V ++ news := by
    simp [hV, List.append_assoc]
  obtain ⟨k, A, B, hq, hne, hA, hB, hcover⟩ := inv.levels
  have hAne : A ≠ [] := hne (List.cons_ne_nil c rest)
  obtain ⟨A', hA'⟩ : ∃ A', A = c :: A' := by
    cases A with
    | nil => exact absurd rfl hAne
    | cons a A'' =>
      rw [List.cons_append] at hq
      injection hq with h1 h2
      subst h1
      exact ⟨A'', rfl⟩
  subst hA'
  rw [List.cons_append] at hq
  injection hq with h1 hrest
  have hkc : DistIs g s c k := hA c (List.mem_cons_self c A')
  have hnews_dist : ∀ q ∈ news, DistIs g s q (k + 1) := by
    intro q hqn
    obtain ⟨hadj, hnot⟩ := (hmemnews q).mp hqn
    have hreach : ReachN g (k + 1) s q := ReachN.tail hkc.1 hadj
    obtain ⟨dq, hdq⟩ := Reachable.exists_distIs ⟨k + 1, hreach⟩
    have hle : dq ≤ k + 1 := hdq.2 _ hreach
    rcases Nat.lt_or_ge dq (k + 1) with hlt | hge
    · exact absurd (hcover q dq hdq (by omega)) hnot
    · have : dq = k + 1 := by omega
      subst this
      exact hdq
  refine ⟨?_, ?_, ?_, ?_, ?_⟩
  · rw [hshape, List.nodup_append]
    refine ⟨inv.nodup, hnodupnews, ?_⟩
    intro a ha han
    exact ((hmemnews a).mp han).2 ha
  · rw [hshape]
    intro p hp
    rcases List.mem_append.mp hp with hp | hp
    · exact inv.walk p hp
    · exact walkable_of_mem_adjWalkP ((hmemnews p).mp hp).1
  · rw [hshape]
    intro p hp
    rcases List.mem_append.mp hp with hp | hp
    · exact inv.intoff p hp
    · exact intOff_of_mem_neighbors (inv.intoff c hcmem)
        (mem_adjWalkP_iff.mp ((hmemnews p).mp hp).1).1
  · rw [hshape]
    intro p hp q hq
    rcases List.mem_append.mp hp with hp | hp
    · exact List.mem_append_left _ (inv.closed p hp q hq)
    · rw [List.mem_singleton] at hp
      subst hp
      by_cases hv : q ∈ V
      · exact List.mem_append_left _ hv
      · exact List.mem_append_right _ ((hmemnews q).mpr ⟨hq, hv⟩)
  · cases A' with
    | cons a A'' =>
      refine ⟨k, a :: A'', B ++ news, ?_, ?_, ?_, ?_, ?_⟩
      · rw [hrest, List.append_assoc]
      · intro _
        exact List.cons_ne_nil a A''
      · intro p hp
        exact hA p (List.mem_cons_of_mem c hp)
      · intro p hp
        rcases List.mem_append.mp hp with hp | hp
        · exact hB p hp
        · exact hnews_dist p hp
      · intro p d hd hdk
        have := hcover p d hd hdk
        rw [hshape]
        exact List.mem_append_left _ this
    | nil =>
      simp only [List.nil_append] at hrest
      subst hrest
      refine ⟨k + 1, rest ++ news, [], by rw [List.append_nil], fun h => h, ?_, by simp, ?_⟩
      · intro p hp
        rcases List.mem_append.mp hp with hp | hp
        · exact hB p hp
        · exact hnews_dist p hp
      · intro p d hd hdk
        rw [hshape]
        rcases Nat.lt_or_ge d (k + 1) with hlt | hge
        · exact List.mem_append_left _ (hcover p d hd (by omega))
        · have hdk1 : d = k + 1 := by omega
          subst hdk1
          obtain ⟨u, hu, hpu⟩ := distIs_pred hd
          have humem : u ∈ V := hcover u k hu le_rfl
          rw [hV] at humem
          rcases List.mem_append.mp humem with h | h
          · exact List.mem_append_left _ (inv.closed u h p hpu)
          · rcases List.mem_cons.mp h with rfl | h
            · by_cases hv : p ∈ V
              · exact List.mem_append_left _ hv
              · exact List.mem_append_right _ ((hmemnews p).mpr ⟨hpu, hv⟩)
            · have := distIs_unique hu (hB u h)
              omega

/-! ## Breadth-first search: fuel bookkeeping and the master lemma -/

lemma card_after_step {α : Type} [DecidableEq α] (allowed : Finset α)
    (V news : List α) (hsub : ∀ q ∈ news, q ∈ allowed ∧ q ∉ V)
    (hnd : news.Nodup) :
    (allowed \ (V ++ news).toFinset).card =
      (allowed \ V.toFinset).card - news.length ∧
    news.length ≤ (allowed \ V.toFinset).card := by
  have h1 : news.toFinset ⊆ allowed \ V.toFinset := by
    intro q hq
    rw [List.mem_toFinset] at hq
    rw [Finset.mem_sdiff, List.mem_toFinset]
    exact ⟨(hsub q hq).1, (hsub q hq).2⟩
  have h2 : allowed \ (V.toFinset ∪ news.toFinset) =
      (allowed \ V.toFinset) \ news.toFinset := by
    ext x
    simp only [Finset.mem_sdiff, Finset.mem_union]
    tauto
  have h3 : news.toFinset.card = news.length := List.toFinset_card_of_nodup hnd
  constructor
  · rw [List.toFinset_append, h2, Finset.card_sdiff h1, h3]
  · calc news.length = news.toFinset.card := h3.symm
      _ ≤ _ := Finset.card_le_card h1

lemma news_in_allowed {g : GameState} {s : Position}
    {processed rest : List Position} {c : Position}
    (inv : BfsInv g s processed (c :: rest)) (hs : isWalkableP g s = true) :
    ∀ q ∈ (adjWalkP g c).filter
      (fun p => decide (¬ p ∈ processed ++ c :: rest)),
      q ∈ allowedF g s ∧ q ∉ processed ++ c :: rest := by
  intro q hq
  rw [List.mem_filter, decide_eq_true_eq] at hq
  obtain ⟨hadj, hnot⟩ := hq
  have hcmem : c ∈ processed ++ c :: rest := by simp
  refine ⟨?_, hnot⟩
  exact mem_allowedF (walkable_inBounds hs)
    (walkable_inBounds (walkable_of_mem_adjWalkP hadj))
    (intOff_of_mem_neighbors (inv.intoff c hcmem) (mem_adjWalkP_iff.mp hadj).1)

lemma bfs_fuel_step {g : GameState} {s : Position}
    {processed rest : List Position} {c : Position} {n : Nat}
    (inv : BfsInv g s processed (c :: rest)) (hs : isWalkableP g s = true)
    (hfuel : n + 1 ≥ (c :: rest).length +
      (allowedF g s \ (processed ++ c :: rest).toFinset).card) :
    n ≥ (rest ++ (adjWalkP g c).filter
        (fun p => decide (¬ p ∈ processed ++ c :: rest))).length +
      (allowedF g s \ ((processed ++ [c]) ++ (rest ++ (adjWalkP g c).filter
        (fun p => decide (¬ p ∈ processed ++ c :: rest)))).toFinset).card := by
  set news := (adjWalkP g c).filter
    (fun p => decide (¬ p ∈ processed ++ c :: rest)) with hnewsdef
  have hnd : news.Nodup := (adjWalkP_nodup g c).filter _
  have hshape : (processed ++ [c]) ++ (rest ++ news) =
      (processed ++ c :: rest) ++ news := by
    simp [List.append_assoc]
  obtain ⟨hcard, hle⟩ := card_after_step (allowedF g s) (processed ++ c :: rest)
    news (news_in_allowed inv hs) hnd
  rw [hshape, hcard, List.length_append, List.length_cons] at *
  omega

/-- Master lemma for the two dequeue-tested searches: a `some` result is
the value of `test` at a dequeued node of minimal distance among all
reachable nodes where `test` fires, and a `none` result means `test` fires
at no reachable node. -/
lemma bfsFind_go (g : GameState) (s : Position)
    (test : Position → Option Position) (hs : isWalkableP g s = true) :
    ∀ (fuel : Nat) (processed queue : List Position),
    BfsInv g s processed queue →
    (∀ p ∈ processed, test p = none) →
    fuel ≥ queue.length + (allowedF g s \ (processed ++ queue).toFinset).card →
    (bfsFind g test fuel queue (processed ++ queue) = none →
        ∀ u, Reachable g s u → test u = none) ∧
    (∀ r, bfsFind g test fuel queue (processed ++ queue) = some r →
        ∃ c k, DistIs g s c k ∧ isWalkableP g c = true ∧ test c = some r ∧
          ∀ u du, Reachable g s u → (test u).isSome = true →
            DistIs g s u du → k ≤ du) := by
  intro fuel
  induction fuel with
  | zero =>
    intro processed queue inv hnone hfuel
    have hq : queue = [] := by
      cases queue with
      | nil => rfl
      | cons a l => simp at hfuel
    subst hq
    constructor
    · intro _ u hu
      obtain ⟨m, hm⟩ := hu
      exact hnone u (inv.complete hm)
    · intro r hr
      rw [bfsFind] at hr
      cases hr
  | succ n ih =>
    intro processed queue inv hnone hfuel
    cases queue with
    | nil =>
      constructor
      · intro _ u hu
        obtain ⟨m, hm⟩ := hu
        exact hnone u (inv.complete hm)
      · intro r hr
        rw [bfsFind] at hr
        cases hr
    | cons c rest =>
      have hcmem : c ∈ processed ++ c :: rest := by simp
      cases htc : test c with
      | some r0 =>
        have hres : bfsFind g test (n + 1) (c :: rest) (processed ++ c :: rest)
            = some r0 := by
          rw [bfsFind, htc]
        constructor
        · intro hnone'
          rw [hres] at hnone'
          cases hnone'
        · intro r hr
          rw [hres] at hr
          injection hr with hr0
          subst hr0
          obtain ⟨k, hkc, hmin⟩ := inv.dequeue_min
          refine ⟨c, k, hkc, inv.walk c hcmem, htc, ?_⟩
          intro u du hu hsome hdu
          refine hmin u du hdu ?_
          intro hup
          rw [hnone u hup] at hsome
          simp at hsome
      | none =>
        have hres : bfsFind g test (n + 1) (c :: rest) (processed ++ c :: rest)
            = bfsFind g test n
                (rest ++ (adjWalkP g c).filter
                  (fun p => decide (¬ p ∈ processed ++ c :: rest)))
                ((processed ++ c :: rest) ++ (adjWalkP g c).filter
                  (fun p => decide (¬ p ∈ processed ++ c :: rest))) := by
          rw [bfsFind, htc]
        have hshape : (processed ++ c :: rest) ++ (adjWalkP g c).filter
              (fun p => decide (¬ p ∈ processed ++ c :: rest)) =
            (processed ++ [c]) ++ (rest ++ (adjWalkP g c).filter
              (fun p => decide (¬ p ∈ processed ++ c :: rest))) := by
          simp [List.append_assoc]
        have hnone' : ∀ p ∈ processed ++ [c], test p = none := by
          intro p hp
          rcases List.mem_append.mp hp with hp | hp
          · exact hnone p hp
          · rw [List.mem_singleton] at hp
            subst hp
            exact htc
        have hmain := ih (processed ++ [c])
          (rest ++ (adjWalkP g c).filter
            (fun p => decide (¬ p ∈ processed ++ c :: rest)))
          inv.step hnone' (bfs_fuel_step inv hs hfuel)
        rw [hres, hshape]
        exact hmain

/-! ## C6 and C7: nearest safe tile and nearest box -/

lemma safeTest_eq_some {g : GameState} {c r : Position}
    (h : safeTest g c = some r) : isSafeP g c = true ∧ c = r := by
  rw [safeTest] at h
  by_cases hsafe : isSafeP g c = true
  · rw [if_pos hsafe] at h
    injection h with h
    exact ⟨hsafe, h⟩
  · rw [if_neg hsafe] at h
    cases h

lemma safeTest_isSome {g : GameState} {u : Position}
    (h : isSafeP g u = true) : (safeTest g u).isSome = true := by
  rw [safeTest, if_pos h]
  rfl

lemma safeTest_eq_none {g : GameState} {u : Position}
    (h : safeTest g u = none) : isSafeP g u = false := by
  cases hb : isSafeP g u with
  | false => rfl
  | true =>
    rw [safeTest, if_pos hb] at h
    cases h

/-- C6: `getNearestSafePosition` returns nothing on malformed or
non-walkable starts; otherwise a returned tile is walkable, safe,
reachable, and nearest by step count among all reachable safe tiles
(ties broken by the breadth-first expansion order), and a `none` result
means no reachable tile is safe. -/
theorem C6_nearest_safe (g : GameState) (s : Position) :
    getNearestSafePosition g .invalid = none ∧
    (isWalkableP g s = false → getNearestSafePosition g (.valid s) = none) ∧
    (isWalkableP g s = true →
      (∀ r, getNearestSafePosition g (.valid s) = some r →
        isWalkableP g r = true ∧ isSafeP g r = true ∧ Reachable g s r ∧
        ∃ k, DistIs g s r k ∧
          ∀ u du, Reachable g s u → isSafeP g u = true →
            DistIs g s u du → k ≤ du) ∧
      (getNearestSafePosition g (.valid s) = none →
        ∀ u, Reachable g s u → isSafeP g u = false)) := by
  refine ⟨rfl, ?_, ?_⟩
  · intro hw
    show (if !(isWalkableP g s) then none else _) = none
    rw [hw]
    rfl
  · intro hw
    have hrun : getNearestSafePosition g (.valid s) =
        bfsFind g (safeTest g) (bfsFuel g) [s] [s] := by
      show (if !(isWalkableP g s) then none else _) = _
      rw [hw]
      rfl
    have hfuel : bfsFuel g ≥ ([s] : List Position).length +
        (allowedF g s \ (([] : List Position) ++ [s]).toFinset).card := by
      have h1 := bfsFuel_ge g s
      have h2 : (allowedF g s \ ([s] : List Position).toFinset).card ≤
          (allowedF g s).card := Finset.card_le_card Finset.sdiff_subset
      simp only [List.nil_append, List.length_singleton]
      omega
    have hmain := bfsFind_go g s (safeTest g) hw (bfsFuel g) [] [s]
      (BfsInv.initial g s hw) (by simp) hfuel
    rw [List.nil_append] at hmain
    constructor
    · intro r hr
      rw [hrun] at hr
      obtain ⟨c, k, hkc, hwalkc, htest, hmin⟩ := hmain.2 r hr
      obtain ⟨hsafec, rfl⟩ := safeTest_eq_some htest
      refine ⟨hwalkc, hsafec, ⟨k, hkc.1⟩, k, hkc, ?_⟩
      intro u du hu hsafeu hdu
      exact hmin u du hu (safeTest_isSome hsafeu) hdu
    · intro hr u hu
      rw [hrun] at hr
      exact safeTest_eq_none (hmain.1 hr u hu)

lemma boxTest_eq_some {g : GameState} {c b : Position}
    (h : boxTest g c = some b) :
    b ∈ neighborsOf c ∧ inBounds g b = true ∧ cellAt g b = some CellType.BOX := by
  rw [boxTest] at h
  have hmem := List.mem_of_find?_eq_some h
  have hpred := List.find?_some h
  simp only [Bool.and_eq_true, decide_eq_true_eq] at hpred
  exact ⟨hmem, hpred.1, hpred.2⟩

lemma boxTest_isSome {g : GameState} {u a : Position}
    (ha : a ∈ neighborsOf u) (hin : inBounds g a = true)
    (hcell : cellAt g a = some CellType.BOX) : (boxTest g u).isSome = true := by
  rw [boxTest, List.find?_isSome]
  exact ⟨a, ha, by simp [hin, hcell]⟩

lemma boxTest_eq_none {g : GameState} {u : Position}
    (h : boxTest g u = none) :
    ∀ a ∈ neighborsOf u,
      ¬(inBounds g a = true ∧ cellAt g a = some CellType.BOX) := by
  intro a ha hc
  rw [boxTest, List.find?_eq_none] at h
  have := h a ha
  simp [hc.1, hc.2] at this

/-- C7: `findNearestBox` returns nothing on malformed or non-walkable
starts; otherwise a returned tile is an in-bounds BOX cell orthogonally
adjacent to some reachable walkable tile of minimal path distance among
all reachable tiles having an adjacent in-bounds BOX (so "nearest" is
path distance to an adjacent tile, and a box with no reachable
orthogonally adjacent walkable tile is never returned); `none` means no
reachable tile has an adjacent BOX. -/
theorem C7_nearest_box (g : GameState) (s : Position) :
    findNearestBox g .invalid = none ∧
    (isWalkableP g s = false → findNearestBox g (.valid s) = none) ∧
    (isWalkableP g s = true →
      (∀ b, findNearestBox g (.valid s) = some b →
        inBounds g b = true ∧ cellAt g b = some CellType.BOX ∧
        ∃ c k, Reachable g s c ∧ isWalkableP g c = true ∧
          b ∈ neighborsOf c ∧ DistIs g s c k ∧
          ∀ u du, Reachable g s u →
            (∃ a ∈ neighborsOf u, inBounds g a = true ∧
              cellAt g a = some CellType.BOX) →
            DistIs g s u du → k ≤ du) ∧
      (findNearestBox g (.valid s) = none →
        ∀ u, Reachable g s u → ∀ a ∈ neighborsOf u,
          ¬(inBounds g a = true ∧ cellAt g a = some CellType.BOX))) := by
  refine ⟨rfl, ?_, ?_⟩
  · intro hw
    show (if !(isWalkableP g s) then none else _) = none
    rw [hw]
    rfl
  · intro hw
    have hrun : findNearestBox g (.valid s) =
        bfsFind g (boxTest g) (bfsFuel g) [s] [s] := by
      show (if !(isWalkableP g s) then none else _) = _
      rw [hw]
      rfl
    have hfuel : bfsFuel g ≥ ([s] : List Position).length +
        (allowedF g s \ (([] : List Position) ++ [s]).toFinset).card := by
      have h1 := bfsFuel_ge g s
      have h2 : (allowedF g s \ ([s] : List Position).toFinset).card ≤
          (allowedF g s).card := Finset.card_le_card Finset.sdiff_subset
      simp only [List.nil_append, List.length_singleton]
      omega
    have hmain := bfsFind_go g s (boxTest g) hw (bfsFuel g) [] [s]
      (BfsInv.initial g s hw) (by simp) hfuel
    rw [List.nil_append] at hmain
    constructor
    · intro b hb
      rw [hrun] at hb
      obtain ⟨c, k, hkc, hwalkc, htest, hmin⟩ := hmain.2 b hb
      obtain ⟨hbmem, hbin, hbcell⟩ := boxTest_eq_some htest
      refine ⟨hbin, hbcell, c, k, ⟨k, hkc.1⟩, hwalkc, hbmem, hkc, ?_⟩
      intro u du hu hbox hdu
      obtain ⟨a, ha, hain, hacell⟩ := hbox
      exact hmin u du hu (boxTest_isSome ha hain hacell) hdu
    · intro hb u hu
      rw [hrun] at hb
      exact boxTest_eq_none (hmain.1 hb u hu)

/-- A 5x5 all-AIR state with one elapsed-fuse bomb at (2,2) (the
repository's own nearest-safe test scenario). -/
def safeState : GameState :=
  ⟨0, ⟨"me", ⟨2, 2⟩, 3, 0⟩, [], [],
   ⟨5, 5, List.replicate 5 (List.replicate 5 CellType.AIR)⟩,
   [⟨⟨2, 2⟩, 0⟩], []⟩

theorem C6_witness :
    isWalkableP safeState ⟨1, 2⟩ = true ∧
    ((∀ r, getNearestSafePosition safeState (.valid ⟨1, 2⟩) = some r →
        isWalkableP safeState r = true ∧ isSafeP safeState r = true ∧
        Reachable safeState ⟨1, 2⟩ r ∧
        ∃ k, DistIs safeState ⟨1, 2⟩ r k ∧
          ∀ u du, Reachable safeState ⟨1, 2⟩ u → isSafeP safeState u = true →
            DistIs safeState ⟨1, 2⟩ u du → k ≤ du) ∧
      (getNearestSafePosition safeState (.valid ⟨1, 2⟩) = none →
        ∀ u, Reachable safeState ⟨1, 2⟩ u → isSafeP safeState u = false)) :=
  ⟨by decide, (C6_nearest_safe safeState ⟨1, 2⟩).2.2 (by decide)⟩

/-- A 3x3 all-AIR state with a single BOX at (2,0). -/
def boxState : GameState :=
  ⟨0, ⟨"me", ⟨0, 0⟩, 3, 0⟩, [], [],
   ⟨3, 3, [[CellType.AIR, CellType.AIR, CellType.BOX],
           [CellType.AIR, CellType.AIR, CellType.AIR],
           [CellType.AIR, CellType.AIR, CellType.AIR]]⟩, [], []⟩

theorem C7_witness :
    isWalkableP boxState ⟨0, 0⟩ = true ∧
    ((∀ b, findNearestBox boxState (.valid ⟨0, 0⟩) = some b →
        inBounds boxState b = true ∧ cellAt boxState b = some CellType.BOX ∧
        ∃ c k, Reachable boxState ⟨0, 0⟩ c ∧ isWalkableP boxState c = true ∧
          b ∈ neighborsOf c ∧ DistIs boxState ⟨0, 0⟩ c k ∧
          ∀ u du, Reachable boxState ⟨0, 0⟩ u →
            (∃ a ∈ neighborsOf u, inBounds boxState a = true ∧
              cellAt boxState a = some CellType.BOX) →
            DistIs boxState ⟨0, 0⟩ u du → k ≤ du) ∧
      (findNearestBox boxState (.valid ⟨0, 0⟩) = none →
        ∀ u, Reachable boxState ⟨0, 0⟩ u → ∀ a ∈ neighborsOf u,
          ¬(inBounds boxState a = true ∧
            cellAt boxState a = some CellType.BOX))) :=
  ⟨by decide, (C7_nearest_box boxState ⟨0, 0⟩).2.2 (by decide)⟩

/-! ## C3 and C8: first-step routing -/

lemma alookup_append_some {σ τ : List (Position × Action)} {p : Position}
    {a : Action} (h : alookup σ p = some a) : alookup (σ ++ τ) p = some a := by
  induction σ with
  | nil => cases h
  | cons e rest ih =>
    rw [List.cons_append]
    rw [alookup] at h ⊢
    by_cases he : e.1 = p
    · rwa [if_pos he] at h ⊢
    · rw [if_neg he] at h ⊢
      exact ih h

lemma alookup_append_none {σ τ : List (Position × Action)} {p : Position}
    (h : alookup σ p = none) : alookup (σ ++ τ) p = alookup τ p := by
  induction σ with
  | nil => rfl
  | cons e rest ih =>
    rw [List.cons_append]
    rw [alookup] at h ⊢
    by_cases he : e.1 = p
    · rw [if_pos he] at h
      cases h
    · rw [if_neg he] at h ⊢
      exact ih h

lemma alookup_keys_ne {τ : List (Position × Action)} {p : Position}
    (h : ∀ e ∈ τ, e.1 ≠ p) : alookup τ p = none := by
  induction τ with
  | nil => rfl
  | cons e rest ih =>
    rw [alookup, if_neg (h e (List.mem_cons_self e rest))]
    exact ih fun e' he' => h e' (List.mem_cons_of_mem e he')

lemma alookup_append_keys_ne {σ τ : List (Position × Action)} {p : Position}
    (h : ∀ e ∈ τ, e.1 ≠ p) : alookup (σ ++ τ) p = alookup σ p := by
  cases hσ : alookup σ p with
  | some a => exact alookup_append_some hσ
  | none => rw [alookup_append_none hσ, alookup_keys_ne h]

lemma alookup_pairs (l : List Position) (f : Position → Action) (p : Position) :
    alookup (l.map (fun n => (n, f n))) p = if p ∈ l then some (f p) else none := by
  induction l with
  | nil => simp [alookup]
  | cons n rest ih =>
    rw [List.map_cons, alookup]
    by_cases hnp : n = p
    · subst hnp
      rw [if_pos rfl, if_pos (List.mem_cons_self n rest)]
    · rw [if_neg hnp, ih]
      by_cases hp : p ∈ rest
      · rw [if_pos hp, if_pos (List.mem_cons_of_mem n hp)]
      · rw [if_neg hp, if_neg (by
          intro hc
          rcases List.mem_cons.mp hc with h | h
          · exact hnp h.symm
          · exact hp h)]

/-- Characterization of the inner neighbour loop of
`getNextActionTowards`: over a duplicate-free neighbour list it either
early-returns the recorded action when the target is among the fresh
neighbours, or returns the state extended by exactly the fresh
neighbours. -/
lemma stepNeighbors_run (s t c : Position) :
    ∀ (ns visited queue : List Position) (σ : List (Position × Action)),
    ns.Nodup → c ∈ visited →
    ((t ∈ ns.filter (fun n => decide (¬ n ∈ visited)) →
      stepNeighbors s t c ns visited queue σ =
        Sum.inl (if c = s then actionBetween c t
                 else (alookup σ c).getD .DO_NOTHING)) ∧
     (t ∉ ns.filter (fun n => decide (¬ n ∈ visited)) →
      stepNeighbors s t c ns visited queue σ =
        Sum.inr (visited ++ ns.filter (fun n => decide (¬ n ∈ visited)),
                 queue ++ ns.filter (fun n => decide (¬ n ∈ visited)),
                 σ ++ (ns.filter (fun n => decide (¬ n ∈ visited))).map
                   (fun n => (n, if c = s then actionBetween c n
                                 else (alookup σ c).getD .DO_NOTHING))))) := by
  intro ns
  induction ns with
  | nil =>
    intro visited queue σ hnd hcv
    constructor
    · intro h
      simp at h
    · intro _
      simp [stepNeighbors]
  | cons n rest ih =>
    intro visited queue σ hnd hcv
    have hndr : rest.Nodup := hnd.of_cons
    have hnr : n ∉ rest := (List.nodup_cons.mp hnd).1
    rw [stepNeighbors]
    by_cases hnv : n ∈ visited
    · rw [if_pos hnv]
      have hfilter : (n :: rest).filter (fun m => decide (¬ m ∈ visited)) =
          rest.filter (fun m => decide (¬ m ∈ visited)) := by
        rw [List.filter_cons]
        simp [hnv]
      rw [hfilter]
      exact ih visited queue σ hndr hcv
    · rw [if_neg hnv]
      have hfilter : (n :: rest).filter (fun m => decide (¬ m ∈ visited)) =
          n :: rest.filter (fun m => decide (¬ m ∈ visited)) := by
        rw [List.filter_cons]
        simp [hnv]
      by_cases hnt : n = t
      · subst hnt
        rw [if_pos rfl]
        constructor
        · intro _
          rfl
        · intro habs
          exfalso
          apply habs
          rw [hfilter]
          exact List.mem_cons_self _ _
      · rw [if_neg hnt]
        have hnc : n ≠ c := fun h => hnv (h ▸ hcv)
        have hcv' : c ∈ visited ++ [n] := List.mem_append_left _ hcv
        have halo : alookup (σ ++ [(n, if c = s then actionBetween c n
            else (alookup σ c).getD .DO_NOTHING)]) c = alookup σ c := by
          apply alookup_append_keys_ne
          intro e he
          rw [List.mem_singleton] at he
          subst he
          exact hnc
        have hfeq : rest.filter (fun m => decide (¬ m ∈ visited ++ [n])) =
            rest.filter (fun m => decide (¬ m ∈ visited)) := by
          apply List.filter_congr
          intro m hm
          have hmn : m ≠ n := fun h => hnr (h ▸ hm)
          simp [List.mem_append, hmn]
        have hrec := ih (visited ++ [n]) (queue ++ [n])
          (σ ++ [(n, if c = s then actionBetween c n
            else (alookup σ c).getD .DO_NOTHING)]) hndr hcv'
        rw [hfeq, halo] at hrec
        constructor
        · intro ht
          rw [hfilter] at ht
          rcases List.mem_cons.mp ht with h | h
          · exact absurd h.symm hnt
          · exact hrec.1 h
        · intro ht
          rw [hfilter] at ht
          have htr : t ∉ rest.filter (fun m => decide (¬ m ∈ visited)) :=
            fun h => ht (List.mem_cons_of_mem _ h)
          rw [hrec.2 htr, hfilter, List.map_cons]
          simp [List.append_assoc]

/-- The fresh walkable neighbours of the dequeued head all sit exactly one
step beyond it. -/
lemma BfsInv.undiscovered_dist {g : GameState} {s : Position}
    {processed rest : List Position} {c : Position}
    (inv : BfsInv g s processed (c :: rest)) {k : Nat} (hkc : DistIs g s c k) :
    ∀ q, q ∈ adjWalkP g c → q ∉ processed ++ c :: rest →
      DistIs g s q (k + 1) := by
  obtain ⟨k', A, B, hq, hne, hA, hB, hcover⟩ := inv.levels
  have hAne : A ≠ [] := hne (List.cons_ne_nil c rest)
  obtain ⟨A', hA'⟩ : ∃ A', A = c :: A' := by
    cases A with
    | nil => exact absurd rfl hAne
    | cons a A'' =>
      rw [List.cons_append] at hq
      injection hq with h1 h2
      subst h1
      exact ⟨A'', rfl⟩
  subst hA'
  have hkk : k = k' := distIs_unique hkc (hA c (List.mem_cons_self c A'))
  subst hkk
  intro q hadj hnot
  have hreach : ReachN g (k + 1) s q := ReachN.tail hkc.1 hadj
  obtain ⟨dq, hdq⟩ := Reachable.exists_distIs ⟨k + 1, hreach⟩
  have hle : dq ≤ k + 1 := hdq.2 _ hreach
  rcases Nat.lt_or_ge dq (k + 1) with hlt | hge
  · exact absurd (hcover q dq hdq (by omega)) hnot
  · have heq : dq = k + 1 := by omega
    subst heq
    exact hdq

/-- `a` is the action of the first edge of a shortest path from `s` to
`p`: some walkable neighbour `v` of `s` realizes `a` and lies on a
shortest `s`-to-`p` path. -/
def FirstStepOK (g : GameState) (s : Position) (a : Action) (p : Position) : Prop :=
  ∃ v dp, v ∈ adjWalkP g s ∧ a = actionBetween s v ∧ DistIs g s p dp ∧
    1 ≤ dp ∧ ReachN g (dp - 1) v p

/-- Master lemma for `getNextActionTowards`'s search loop: under the
invariant, if the target is reachable the loop returns the first-edge
action of a shortest path to it, and otherwise it returns the no-op. -/
lemma nextActionAux_go (g : GameState) (s t : Position)
    (hs : isWalkableP g s = true) :
    ∀ (fuel : Nat) (processed queue : List Position)
      (σ : List (Position × Action)),
    BfsInv g s processed queue →
    (∀ p, (alookup σ p).isSome = true ↔ (p ∈ processed ++ queue ∧ p ≠ s)) →
    (∀ p a, alookup σ p = some a → FirstStepOK g s a p) →
    t ∉ processed ++ queue →
    fuel ≥ queue.length + (allowedF g s \ (processed ++ queue).toFinset).card →
    (Reachable g s t →
      FirstStepOK g s (nextActionAux g s t fuel queue (processed ++ queue) σ) t) ∧
    (¬ Reachable g s t →
      nextActionAux g s t fuel queue (processed ++ queue) σ = .DO_NOTHING) := by
  intro fuel
  induction fuel with
  | zero =>
    intro processed queue σ inv hdom hok htv hfuel
    have hq : queue = [] := by
      cases queue with
      | nil => rfl
      | cons a l => simp at hfuel
    subst hq
    constructor
    · rintro ⟨m, hm⟩
      exact absurd (List.mem_append.mpr (Or.inl (inv.complete hm))) htv
    · intro _
      rfl
  | succ n ih =>
    intro processed queue σ inv hdom hok htv hfuel
    cases queue with
    | nil =>
      constructor
      · rintro ⟨m, hm⟩
        exact absurd (List.mem_append.mpr (Or.inl (inv.complete hm))) htv
      · intro _
        rfl
    | cons c rest =>
      obtain ⟨k, hkc, hmin⟩ := inv.dequeue_min
      have hcmem : c ∈ processed ++ c :: rest := by simp
      have hmemnews : ∀ q, q ∈ (adjWalkP g c).filter
          (fun p => decide (¬ p ∈ processed ++ c :: rest)) ↔
          q ∈ adjWalkP g c ∧ q ∉ processed ++ c :: rest := by
        intro q
        rw [List.mem_filter]
        simp
      have hnews_dist := inv.undiscovered_dist hkc
      have hact : ∀ q ∈ (adjWalkP g c).filter
          (fun p => decide (¬ p ∈ processed ++ c :: rest)),
          FirstStepOK g s (if c = s then actionBetween c q
            else (alookup σ c).getD .DO_NOTHING) q := by
        intro q hq
        obtain ⟨hadj, hnot⟩ := (hmemnews q).mp hq
        have hdq := hnews_dist q hadj hnot
        by_cases hcs : c = s
        · subst hcs
          have hk0 : k = 0 := distIs_self_eq_zero hkc
          subst hk0
          rw [if_pos rfl]
          exact ⟨q, 1, hadj, rfl, hdq, le_rfl, ReachN.refl q⟩
        · rw [if_neg hcs]
          have hsome : (alookup σ c).isSome = true := (hdom c).mpr ⟨hcmem, hcs⟩
          obtain ⟨ac, hac⟩ := Option.isSome_iff_exists.mp hsome
          rw [hac, Option.getD_some]
          obtain ⟨v, dc', hv, hactv, hdc', h1dc, hrn⟩ := hok c ac hac
          have hdceq : k = dc' := distIs_unique hkc hdc'
          subst hdceq
          refine ⟨v, k + 1, hv, hactv, hdq, by omega, ?_⟩
          have hstep : ReachN g ((k - 1) + 1) v q := ReachN.tail hrn hadj
          have hkk : (k - 1) + 1 = k := by omega
          rw [hkk] at hstep
          simpa using hstep
      have hrun := stepNeighbors_run s t c (adjWalkP g c)
        (processed ++ c :: rest) rest σ (adjWalkP_nodup g c) hcmem
      by_cases htn : t ∈ (adjWalkP g c).filter
          (fun p => decide (¬ p ∈ processed ++ c :: rest))
      · have hres : nextActionAux g s t (n + 1) (c :: rest)
            (processed ++ c :: rest) σ =
            (if c = s then actionBetween c t
             else (alookup σ c).getD .DO_NOTHING) := by
          rw [nextActionAux, hrun.1 htn]
        constructor
        · intro _
          rw [hres]
          exact hact t htn
        · intro habs
          exfalso
          apply habs
          exact ⟨k + 1, ReachN.tail hkc.1 ((hmemnews t).mp htn).1⟩
      · have hres : nextActionAux g s t (n + 1) (c :: rest)
            (processed ++ c :: rest) σ =
            nextActionAux g s t n
              (rest ++ (adjWalkP g c).filter
                (fun p => decide (¬ p ∈ processed ++ c :: rest)))
              ((processed ++ c :: rest) ++ (adjWalkP g c).filter
                (fun p => decide (¬ p ∈ processed ++ c :: rest)))
              (σ ++ ((adjWalkP g c).filter
                (fun p => decide (¬ p ∈ processed ++ c :: rest))).map
                (fun q => (q, if c = s then actionBetween c q
                  else (alookup σ c).getD .DO_NOTHING))) := by
          rw [nextActionAux, hrun.2 htn]
        have hshape : (processed ++ c :: rest) ++ (adjWalkP g c).filter
            (fun p => decide (¬ p ∈ processed ++ c :: rest)) =
            (processed ++ [c]) ++ (rest ++ (adjWalkP g c).filter
              (fun p => decide (¬ p ∈ processed ++ c :: rest))) := by
          simp [List.append_assoc]
        have hdom' : ∀ p, (alookup (σ ++ ((adjWalkP g c).filter
            (fun p => decide (¬ p ∈ processed ++ c :: rest))).map
            (fun q => (q, if c = s then actionBetween c q
              else (alookup σ c).getD .DO_NOTHING))) p).isSome = true ↔
            (p ∈ (processed ++ [c]) ++ (rest ++ (adjWalkP g c).filter
              (fun p => decide (¬ p ∈ processed ++ c :: rest))) ∧ p ≠ s) := by
          intro p
          rw [← hshape]
          cases hsp : alookup σ p with
          | some a =>
            rw [alookup_append_some hsp]
            simp only [Option.isSome_some, true_iff]
            have hold := (hdom p).mp (by rw [hsp]; rfl)
            exact ⟨List.mem_append_left _ hold.1, hold.2⟩
          | none =>
            rw [alookup_append_none hsp, alookup_pairs]
            have hnp : ¬(p ∈ processed ++ c :: rest ∧ p ≠ s) := by
              intro hcontra
              have := (hdom p).mpr hcontra
              rw [hsp] at this
              cases this
            by_cases hpn : p ∈ (adjWalkP g c).filter
                (fun p => decide (¬ p ∈ processed ++ c :: rest))
            · rw [if_pos hpn]
              simp only [Option.isSome_some, true_iff]
              refine ⟨List.mem_append_right _ hpn, ?_⟩
              intro hps
              subst hps
              exact ((hmemnews p).mp hpn).2 (by simpa using inv.start_mem)
            · rw [if_neg hpn]
              simp only [Option.isSome_none, Bool.false_eq_true, false_iff]
              rintro ⟨hpV, hps⟩
              rcases List.mem_append.mp hpV with h | h
              · exact hnp ⟨h, hps⟩
              · exact hpn h
        have hok' : ∀ p a, alookup (σ ++ ((adjWalkP g c).filter
            (fun p => decide (¬ p ∈ processed ++ c :: rest))).map
            (fun q => (q, if c = s then actionBetween c q
              else (alookup σ c).getD .DO_NOTHING))) p = some a →
            FirstStepOK g s a p := by
          intro p a hpa
          cases hsp : alookup σ p with
          | some a0 =>
            rw [alookup_append_some hsp] at hpa
            injection hpa with h
            subst h
            exact hok p a0 hsp
          | none =>
            rw [alookup_append_none hsp, alookup_pairs] at hpa
            by_cases hpn : p ∈ (adjWalkP g c).filter
                (fun p => decide (¬ p ∈ processed ++ c :: rest))
            · rw [if_pos hpn] at hpa
              injection hpa with h
              subst h
              exact hact p hpn
            · rw [if_neg hpn] at hpa
              cases hpa
        have htv' : t ∉ (processed ++ [c]) ++ (rest ++ (adjWalkP g c).filter
            (fun p => decide (¬ p ∈ processed ++ c :: rest))) := by
          intro h
          rw [← hshape] at h
          rcases List.mem_append.mp h with h | h
          · exact htv h
          · exact htn h
        have hmain := ih (processed ++ [c])
          (rest ++ (adjWalkP g c).filter
            (fun p => decide (¬ p ∈ processed ++ c :: rest)))
          (σ ++ ((adjWalkP g c).filter
            (fun p => decide (¬ p ∈ processed ++ c :: rest))).map
            (fun q => (q, if c = s then actionBetween c q
              else (alookup σ c).getD .DO_NOTHING)))
          inv.step hdom' hok' htv' (bfs_fuel_step inv hs hfuel)
        rw [hres, hshape]
        exact hmain

lemma empty_initial_dom (s : Position) :
    ∀ p, (alookup ([] : List (Position × Action)) p).isSome = true ↔
      (p ∈ ([] : List Position) ++ [s] ∧ p ≠ s) := by
  intro p
  constructor
  · intro h
    cases h
  · rintro ⟨hp, hps⟩
    rw [List.nil_append, List.mem_singleton] at hp
    exact absurd hp hps

/-- C3: when both endpoints are walkable, distinct, and the target is
reachable, `getNextActionTowards` returns the action of the first edge of
a shortest path (the particular shortest path being the one the fixed
up/right/down/left expansion order discovers first, so the output is a
deterministic function of the snapshot). -/
theorem C3_route_first_step (g : GameState) (s t : Position)
    (hs : isWalkableP g s = true) (ht : isWalkableP g t = true)
    (hne : s ≠ t) (hreach : Reachable g s t) :
    ∃ v n, v ∈ adjWalkP g s ∧
      getNextActionTowards g (.valid s) (.valid t) = actionBetween s v ∧
      ReachN g n v t ∧
      ∀ m, ReachN g m s t → n + 1 ≤ m := by
  have hrun : getNextActionTowards g (.valid s) (.valid t) =
      nextActionAux g s t (bfsFuel g) [s] [s] [] := by
    show (if s = t then _ else _) = _
    rw [if_neg hne]
    show (if !(isWalkableP g s) || !(isWalkableP g t) then _ else _) = _
    rw [hs, ht]
    rfl
  have hfuel : bfsFuel g ≥ ([s] : List Position).length +
      (allowedF g s \ (([] : List Position) ++ [s]).toFinset).card := by
    have h1 := bfsFuel_ge g s
    have h2 : (allowedF g s \ ([s] : List Position).toFinset).card ≤
        (allowedF g s).card := Finset.card_le_card Finset.sdiff_subset
    simp only [List.nil_append, List.length_singleton]
    omega
  have hok0 : ∀ p a, alookup ([] : List (Position × Action)) p = some a →
      FirstStepOK g s a p := by
    intro p a h
    cases h
  have htv0 : t ∉ ([] : List Position) ++ [s] := by
    rw [List.nil_append, List.mem_singleton]
    exact fun h => hne h.symm
  have hmain := nextActionAux_go g s t hs (bfsFuel g) [] [s] []
    (BfsInv.initial g s hs) (empty_initial_dom s) hok0 htv0 hfuel
  rw [List.nil_append] at hmain
  obtain ⟨v, dp, hv, hact, hdist, h1, hrn⟩ := hmain.1 hreach
  refine ⟨v, dp - 1, hv, ?_, hrn, ?_⟩
  · rw [hrun]
    exact hact
  · intro m hm
    have := hdist.2 m hm
    omega

lemma getNextActionTowards_nonwalkable (g : GameState) (s t : Position)
    (h : isWalkableP g s = false ∨ isWalkableP g t = false) :
    getNextActionTowards g (.valid s) (.valid t) = .DO_NOTHING := by
  by_cases hst : s = t
  · subst hst
    show (if s = s then _ else _) = _
    rw [if_pos rfl]
  · show (if s = t then _ else _) = _
    rw [if_neg hst]
    have hcond : (!(isWalkableP g s) || !(isWalkableP g t)) = true := by
      rcases h with h | h <;> simp [h]
    rw [if_pos hcond]

lemma getNextActionTowards_unreachable (g : GameState) (s t : Position)
    (hs : isWalkableP g s = true) (hne : s ≠ t)
    (habs : ¬ Reachable g s t) :
    getNextActionTowards g (.valid s) (.valid t) = .DO_NOTHING := by
  by_cases ht : isWalkableP g t = true
  · have hrun : getNextActionTowards g (.valid s) (.valid t) =
        nextActionAux g s t (bfsFuel g) [s] [s] [] := by
      show (if s = t then _ else _) = _
      rw [if_neg hne]
      show (if !(isWalkableP g s) || !(isWalkableP g t) then _ else _) = _
      rw [hs, ht]
      rfl
    have hfuel : bfsFuel g ≥ ([s] : List Position).length +
        (allowedF g s \ (([] : List Position) ++ [s]).toFinset).card := by
      have h1 := bfsFuel_ge g s
      have h2 : (allowedF g s \ ([s] : List Position).toFinset).card ≤
          (allowedF g s).card := Finset.card_le_card Finset.sdiff_subset
      simp only [List.nil_append, List.length_singleton]
      omega
    have hok0 : ∀ p a, alookup ([] : List (Position × Action)) p = some a →
        FirstStepOK g s a p := by
      intro p a h
      cases h
    have htv0 : t ∉ ([] : List Position) ++ [s] := by
      rw [List.nil_append, List.mem_singleton]
      exact fun h => hne h.symm
    have hmain := nextActionAux_go g s t hs (bfsFuel g) [] [s] []
      (BfsInv.initial g s hs) (empty_initial_dom s) hok0 htv0 hfuel
    rw [List.nil_append] at hmain
    rw [hrun]
    exact hmain.2 habs
  · exact getNextActionTowards_nonwalkable g s t
      (Or.inr (by cases hb : isWalkableP g t with
        | true => exact absurd hb ht
        | false => rfl))

/-- C8: `getNextActionTowards` returns the no-op action whenever no path
exists from start to target, whenever start equals target, and whenever
either endpoint is malformed, non-walkable, or out of bounds. -/
theorem C8_route_noop (g : GameState) :
    (∀ s t : Position, isWalkableP g s = true → s ≠ t →
      ¬ Reachable g s t →
      getNextActionTowards g (.valid s) (.valid t) = .DO_NOTHING) ∧
    (∀ pi, getNextActionTowards g pi pi = .DO_NOTHING) ∧
    (∀ s t : Position, isWalkableP g s = false ∨ isWalkableP g t = false →
      getNextActionTowards g (.valid s) (.valid t) = .DO_NOTHING) ∧
    (∀ u, getNextActionTowards g .invalid u = .DO_NOTHING) ∧
    (∀ u, getNextActionTowards g u .invalid = .DO_NOTHING) ∧
    (∀ s t : Position, inBounds g s = false ∨ inBounds g t = false →
      getNextActionTowards g (.valid s) (.valid t) = .DO_NOTHING) := by
  have hwf : ∀ p : Position, inBounds g p = false → isWalkableP g p = false := by
    intro p h
    cases hb : isWalkableP g p with
    | false => rfl
    | true =>
      rw [walkable_inBounds hb] at h
      cases h
  refine ⟨getNextActionTowards_unreachable g, ?_, getNextActionTowards_nonwalkable g,
    fun u => rfl, ?_, ?_⟩
  · intro pi
    cases pi with
    | invalid => rfl
    | valid p =>
      show (if p = p then _ else _) = _
      rw [if_pos rfl]
  · intro u
    cases u <;> rfl
  · intro s t h
    refine getNextActionTowards_nonwalkable g s t ?_
    rcases h with h | h
    · exact Or.inl (hwf s h)
    · exact Or.inr (hwf t h)

/-- If the start has no walkable neighbours, nothing else is reachable. -/
lemma reachN_isolated {g : GameState} {s : Position}
    (h : adjWalkP g s = []) :
    ∀ {n : Nat} {p : Position}, ReachN g n s p → p = s := by
  intro n
  induction n with
  | zero =>
    intro p hp
    exact (reachN_zero_iff.mp hp).symm
  | succ m ih =>
    intro p hp
    rcases reachN_succ_iff.mp hp with ⟨q, hq, hpq⟩
    have hqs := ih hq
    subst hqs
    rw [h] at hpq
    exact absurd hpq (List.not_mem_nil p)

/-- The repository's own routing test scenario: 3x3, WALL at (1,0). -/
def routeState : GameState :=
  ⟨0, ⟨"me", ⟨0, 0⟩, 3, 0⟩, [], [],
   ⟨3, 3, [[CellType.AIR, CellType.WALL, CellType.AIR],
           [CellType.AIR, CellType.AIR, CellType.AIR],
           [CellType.AIR, CellType.AIR, CellType.AIR]]⟩, [], []⟩

theorem C3_witness :
    (isWalkableP routeState ⟨0, 0⟩ = true ∧ isWalkableP routeState ⟨2, 0⟩ = true ∧
      (⟨0, 0⟩ : Position) ≠ ⟨2, 0⟩ ∧ Reachable routeState ⟨0, 0⟩ ⟨2, 0⟩) ∧
    (∃ v n, v ∈ adjWalkP routeState ⟨0, 0⟩ ∧
      getNextActionTowards routeState (.valid ⟨0, 0⟩) (.valid ⟨2, 0⟩) =
        actionBetween ⟨0, 0⟩ v ∧
      ReachN routeState n v ⟨2, 0⟩ ∧
      ∀ m, ReachN routeState m ⟨0, 0⟩ ⟨2, 0⟩ → n + 1 ≤ m) := by
  have h1 : (⟨0, 1⟩ : Position) ∈ adjWalkP routeState ⟨0, 0⟩ := by
    have hn : neighborsOf (⟨0, 0⟩ : Position) =
        [⟨0, -1⟩, ⟨1, 0⟩, ⟨0, 1⟩, ⟨-1, 0⟩] := by
      rw [neighborsOf]
      norm_num
    rw [adjWalkP, hn]
    decide
  have h2 : (⟨1, 1⟩ : Position) ∈ adjWalkP routeState ⟨0, 1⟩ := by
    have hn : neighborsOf (⟨0, 1⟩ : Position) =
        [⟨0, 0⟩, ⟨1, 1⟩, ⟨0, 2⟩, ⟨-1, 1⟩] := by
      rw [neighborsOf]
      norm_num
    rw [adjWalkP, hn]
    decide
  have h3 : (⟨2, 1⟩ : Position) ∈ adjWalkP routeState ⟨1, 1⟩ := by
    have hn : neighborsOf (⟨1, 1⟩ : Position) =
        [⟨1, 0⟩, ⟨2, 1⟩, ⟨1, 2⟩, ⟨0, 1⟩] := by
      rw [neighborsOf]
      norm_num
    rw [adjWalkP, hn]
    decide
  have h4 : (⟨2, 0⟩ : Position) ∈ adjWalkP routeState ⟨2, 1⟩ := by
    have hn : neighborsOf (⟨2, 1⟩ : Position) =
        [⟨2, 0⟩, ⟨3, 1⟩, ⟨2, 2⟩, ⟨1, 1⟩] := by
      rw [neighborsOf]
      norm_num
    rw [adjWalkP, hn]
    decide
  have hreach : Reachable routeState ⟨0, 0⟩ ⟨2, 0⟩ :=
    ⟨4, ReachN.tail (ReachN.tail (ReachN.tail
      (ReachN.tail (ReachN.refl ⟨0, 0⟩) h1) h2) h3) h4⟩
  exact ⟨⟨by decide, by decide, by decide, hreach⟩,
    C3_route_first_step routeState ⟨0, 0⟩ ⟨2, 0⟩ (by decide) (by decide)
      (by decide) hreach⟩

/-- A 3x1 row `AIR WALL AIR`: the two AIR cells are mutually unreachable. -/
def wallRow : GameState :=
  ⟨0, ⟨"me", ⟨0, 0⟩, 3, 0⟩, [], [],
   ⟨3, 1, [[CellType.AIR, CellType.WALL, CellType.AIR]]⟩, [], []⟩

theorem C8_witness :
    (isWalkableP wallRow ⟨0, 0⟩ = true ∧ (⟨0, 0⟩ : Position) ≠ ⟨2, 0⟩ ∧
      ¬ Reachable wallRow ⟨0, 0⟩ ⟨2, 0⟩) ∧
    getNextActionTowards wallRow (.valid ⟨0, 0⟩) (.valid ⟨2, 0⟩) =
      .DO_NOTHING := by
  have hadj : adjWalkP wallRow ⟨0, 0⟩ = [] := by
    have hn : neighborsOf (⟨0, 0⟩ : Position) =
        [⟨0, -1⟩, ⟨1, 0⟩, ⟨0, 1⟩, ⟨-1, 0⟩] := by
      rw [neighborsOf]
      norm_num
    rw [adjWalkP, hn]
    decide
  have hnr : ¬ Reachable wallRow ⟨0, 0⟩ ⟨2, 0⟩ := by
    rintro ⟨n, hn⟩
    have := reachN_isolated hadj hn
    exact absurd this (by decide)
  exact ⟨⟨by decide, by decide, hnr⟩,
    (C8_route_noop wallRow).1 ⟨0, 0⟩ ⟨2, 0⟩ (by decide) (by decide) hnr⟩

/-- Witness for C9 at a concrete empty-width state. -/
def emptyState : GameState :=
  ⟨0, ⟨"me", ⟨0, 0⟩, 3, 0⟩, [], [], ⟨0, 5, []⟩, [], []⟩

/-! ## C2: blast footprint characterization -/

/-- The tile at distance `j` from `pos` in direction `d`. -/
def rayTile (pos : Position) (d : Int × Int) (j : Nat) : Position :=
  ⟨pos.x + (d.1 : Rat) * (j : Rat), pos.y + (d.2 : Rat) * (j : Rat)⟩

/-- The spec's description of the blast footprint of a bomb at `pos`:
the bomb's own tile plus, independently in each of the four orthogonal
directions, the tiles at distance 1..3, where the whole prefix of the ray
must be in bounds and WALL-free, and no tile strictly before the reached
one may be a BOX (a BOX absorbs the blast one tile in). -/
def BlastSpec (g : GameState) (pos t : Position) : Prop :=
  t = pos ∨ ∃ d ∈ blastDirs, ∃ k, 1 ≤ k ∧ k ≤ 3 ∧ t = rayTile pos d k ∧
    (∀ j, 1 ≤ j → j ≤ k → inBounds g (rayTile pos d j) = true ∧
      cellAt g (rayTile pos d j) ≠ some CellType.WALL) ∧
    (∀ j, 1 ≤ j → j < k → cellAt g (rayTile pos d j) ≠ some CellType.BOX)

lemma mem_blastRayFrom_iff (g : GameState) (pos : Position) (dx dy : Int)
    (fuel : Nat) :
    ∀ (step : Nat) (t : Position), t ∈ blastRayFrom g pos dx dy step fuel ↔
      ∃ k, step ≤ k ∧ k < step + fuel ∧ t = rayTile pos (dx, dy) k ∧
        (∀ j, step ≤ j → j ≤ k → inBounds g (rayTile pos (dx, dy) j) = true ∧
          cellAt g (rayTile pos (dx, dy) j) ≠ some CellType.WALL) ∧
        (∀ j, step ≤ j → j < k → cellAt g (rayTile pos (dx, dy) j) ≠ some CellType.BOX) := by
  induction fuel with
  | zero =>
    intro step t
    simp only [blastRayFrom, List.not_mem_nil, false_iff]
    rintro ⟨k, hk1, hk2, -⟩
    omega
  | succ n ih =>
    intro step t
    have htile : (⟨pos.x + (dx : Rat) * (step : Rat), pos.y + (dy : Rat) * (step : Rat)⟩ :
        Position) = rayTile pos (dx, dy) step := rfl
    rw [blastRayFrom]
    simp only [htile, Bool.not_eq_true']
    by_cases hin : inBounds g (rayTile pos (dx, dy) step) = true
    · rw [if_neg (by simp [hin])]
      by_cases hw : cellAt g (rayTile pos (dx, dy) step) = some CellType.WALL
      · rw [if_pos hw]
        simp only [List.not_mem_nil, false_iff]
        rintro ⟨k, hk1, hk2, -, hpre, -⟩
        exact (hpre step le_rfl hk1).2 hw
      · rw [if_neg hw]
        by_cases hbx : cellAt g (rayTile pos (dx, dy) step) = some CellType.BOX
        · rw [if_pos hbx]
          simp only [List.mem_singleton]
          constructor
          · rintro rfl
            refine ⟨step, le_rfl, by omega, rfl, ?_, ?_⟩
            · intro j hj1 hj2
              have : j = step := le_antisymm hj2 hj1
              subst this
              exact ⟨hin, hw⟩
            · intro j hj1 hj2
              omega
          · rintro ⟨k, hk1, hk2, rfl, hpre, hbox⟩
            rcases eq_or_lt_of_le hk1 with h | h
            · rw [← h]
            · exact absurd hbx (hbox step le_rfl h)
        · rw [if_neg hbx]
          simp only [List.mem_cons, ih (step + 1) t]
          constructor
          · rintro (rfl | ⟨k, hk1, hk2, rfl, hpre, hbox⟩)
            · refine ⟨step, le_rfl, by omega, rfl, ?_, ?_⟩
              · intro j hj1 hj2
                have : j = step := le_antisymm hj2 hj1
                subst this
                exact ⟨hin, hw⟩
              · intro j hj1 hj2
                omega
            · refine ⟨k, by omega, by omega, rfl, ?_, ?_⟩
              · intro j hj1 hj2
                rcases eq_or_lt_of_le hj1 with h | h
                · rw [← h]; exact ⟨hin, hw⟩
                · exact hpre j h hj2
              · intro j hj1 hj2
                rcases eq_or_lt_of_le hj1 with h | h
                · rw [← h]; exact hbx
                · exact hbox j h hj2
          · rintro ⟨k, hk1, hk2, rfl, hpre, hbox⟩
            rcases eq_or_lt_of_le hk1 with h | h
            · left; rw [← h]
            · right
              exact ⟨k, h, by omega, rfl,
                fun j hj1 hj2 => hpre j (by omega) hj2,
                fun j hj1 hj2 => hbox j (by omega) hj2⟩
    · rw [if_pos (by simp [Bool.not_eq_true] at hin ⊢; exact hin)]
      simp only [List.not_mem_nil, false_iff]
      rintro ⟨k, hk1, hk2, -, hpre, -⟩
      exact hin (hpre step le_rfl hk1).1

/-- Membership in the code's blast footprint of a single bomb position is
exactly the spec's description. -/
lemma mem_blastTilesOfPos_iff (g : GameState) (pos t : Position) :
    t ∈ blastTilesOfPos g pos ↔ BlastSpec g pos t := by
  simp only [blastTilesOfPos, List.mem_cons, List.mem_flatMap, BlastSpec]
  constructor
  · rintro (rfl | ⟨d, hd, hmem⟩)
    · left; rfl
    · right
      rw [mem_blastRayFrom_iff g pos d.1 d.2 3 1 t] at hmem
      obtain ⟨k, hk1, hk2, rfl, hpre, hbox⟩ := hmem
      exact ⟨d, hd, k, hk1, by omega, rfl, fun j h1 h2 => hpre j h1 h2,
        fun j h1 h2 => hbox j h1 h2⟩
  · rintro (rfl | ⟨d, hd, k, hk1, hk2, rfl, hpre, hbox⟩)
    · left; rfl
    · right
      refine ⟨d, hd, ?_⟩
      rw [mem_blastRayFrom_iff g pos d.1 d.2 3 1 _]
      exact ⟨k, hk1, by omega, rfl, fun j h1 h2 => hpre j h1 h2,
        fun j h1 h2 => hbox j h1 h2⟩

lemma natCast_rat_nonneg (k : Nat) : (0 : Rat) ≤ (k : Rat) := by
  exact_mod_cast Nat.zero_le k

/-- Solving `rayTile pos d k = rayTile pos (1,0) m` for `d ∈ blastDirs`,
`1 ≤ k`: only the rightward ray can produce a tile strictly to the right
of the bomb, and then `k = m`. -/
lemma rayTile_right_eq (pos : Position) (d : Int × Int) (hd : d ∈ blastDirs)
    (k m : Nat) (hk : 1 ≤ k) (hm : 1 ≤ m)
    (heq : rayTile pos d k = rayTile pos (1, 0) m) : d = (1, 0) ∧ k = m := by
  have hkr : (0 : Rat) < (k : Rat) := by exact_mod_cast hk
  have hmr : (0 : Rat) < (m : Rat) := by exact_mod_cast hm
  rw [rayTile, rayTile, Position.mk.injEq] at heq
  obtain ⟨hx, hy⟩ := heq
  simp only [blastDirs, List.mem_cons, List.not_mem_nil, or_false] at hd
  rcases hd with rfl | rfl | rfl | rfl
  · exfalso
    simp only [Int.cast_zero, Int.cast_one, zero_mul, one_mul] at hx
    linarith
  · refine ⟨rfl, ?_⟩
    simp only [Int.cast_one, one_mul] at hx
    have : (k : Rat) = (m : Rat) := by linarith
    exact_mod_cast this
  · exfalso
    simp only [Int.cast_zero, Int.cast_one, zero_mul, one_mul] at hx
    linarith
  · exfalso
    simp only [Int.cast_neg, Int.cast_one, Int.cast_zero, neg_mul, one_mul] at hx
    linarith

lemma rayTile_right_ne_pos (pos : Position) (m : Nat) (hm : 1 ≤ m) :
    rayTile pos (1, 0) m ≠ pos := by
  have hmr : (0 : Rat) < (m : Rat) := by exact_mod_cast hm
  rw [rayTile]
  intro h
  rw [show pos = Position.mk pos.x pos.y from rfl, Position.mk.injEq] at h
  obtain ⟨hx, -⟩ := h
  simp only [Int.cast_one, one_mul] at hx
  linarith

/-- C2: the blast footprint of every bomb is exactly the bomb's own tile
plus, independently in each orthogonal direction, the tiles at distance
1..3, with rays stopped by the grid boundary, stopped before a WALL, and
stopped after absorbing into a BOX; in particular, for a bomb with elapsed
fuse, a WALL one tile to the right excludes both that tile and the one
beyond it, while a BOX one tile to the right (an actual in-bounds tile)
is included but the tile beyond it is excluded. -/
theorem C2_blast_footprint (g : GameState) (b : Bomb) :
    (∀ t, t ∈ blastTilesOfPos g b.pos ↔ BlastSpec g b.pos t) ∧
    (b.fuse ≤ 0 → cellAt g (rayTile b.pos (1, 0) 1) = some CellType.WALL →
      rayTile b.pos (1, 0) 1 ∉ blastTilesOfPos g b.pos ∧
      rayTile b.pos (1, 0) 2 ∉ blastTilesOfPos g b.pos) ∧
    (b.fuse ≤ 0 → cellAt g (rayTile b.pos (1, 0) 1) = some CellType.BOX →
      inBounds g (rayTile b.pos (1, 0) 1) = true →
      rayTile b.pos (1, 0) 1 ∈ blastTilesOfPos g b.pos ∧
      rayTile b.pos (1, 0) 2 ∉ blastTilesOfPos g b.pos) := by
  refine ⟨mem_blastTilesOfPos_iff g b.pos, ?_, ?_⟩
  · intro _ hwall
    constructor
    · rw [mem_blastTilesOfPos_iff]
      rintro (h | ⟨d, hd, k, hk1, hk2, heq, hpre, hbox⟩)
      · exact rayTile_right_ne_pos b.pos 1 le_rfl h
      · obtain ⟨rfl, rfl⟩ := rayTile_right_eq b.pos d hd k 1 hk1 le_rfl heq.symm
        exact (hpre 1 le_rfl le_rfl).2 hwall
    · rw [mem_blastTilesOfPos_iff]
      rintro (h | ⟨d, hd, k, hk1, hk2, heq, hpre, hbox⟩)
      · exact rayTile_right_ne_pos b.pos 2 (by omega) h
      · obtain ⟨rfl, rfl⟩ := rayTile_right_eq b.pos d hd k 2 hk1 (by omega) heq.symm
        exact (hpre 1 le_rfl (by omega)).2 hwall
  · intro _ hbox hin
    constructor
    · rw [mem_blastTilesOfPos_iff]
      right
      refine ⟨(1, 0), by simp [blastDirs], 1, le_rfl, by omega, rfl, ?_, ?_⟩
      · intro j hj1 hj2
        have : j = 1 := le_antisymm hj2 hj1
        subst this
        refine ⟨hin, ?_⟩
        rw [hbox]
        simp
      · intro j hj1 hj2
        omega
    · rw [mem_blastTilesOfPos_iff]
      rintro (h | ⟨d, hd, k, hk1, hk2, heq, hpre, hbx⟩)
      · exact rayTile_right_ne_pos b.pos 2 (by omega) h
      · obtain ⟨rfl, rfl⟩ := rayTile_right_eq b.pos d hd k 2 hk1 (by omega) heq.symm
        exact hbx 1 le_rfl (by omega) hbox

/-- Witness for C2's conditional parts: a 4x1 field `AIR WALL AIR AIR`
with a fuse-0 bomb at the origin (WALL case), and `AIR BOX AIR AIR`
(BOX case); here only the WALL case is instantiated, the BOX case is
exercised through the same theorem at a second state below. -/
def wallState : GameState :=
  ⟨0, ⟨"me", ⟨0, 0⟩, 3, 0⟩, [], [],
   ⟨4, 1, [[CellType.AIR, CellType.WALL, CellType.AIR, CellType.AIR]]⟩,
   [⟨⟨0, 0⟩, 0⟩], []⟩

theorem C2_witness :
    ((⟨⟨0, 0⟩, 0⟩ : Bomb).fuse ≤ 0 ∧
      cellAt wallState (rayTile ⟨0, 0⟩ (1, 0) 1) = some CellType.WALL) ∧
    (rayTile (⟨0, 0⟩ : Position) (1, 0) 1 ∉ blastTilesOfPos wallState (⟨0, 0⟩ : Position) ∧
      rayTile (⟨0, 0⟩ : Position) (1, 0) 2 ∉ blastTilesOfPos wallState (⟨0, 0⟩ : Position)) := by
  have h1 : rayTile (⟨0, 0⟩ : Position) (1, 0) 1 = (⟨1, 0⟩ : Position) := by
    simp [rayTile]
  have hc : cellAt wallState (rayTile ⟨0, 0⟩ (1, 0) 1) = some CellType.WALL := by
    rw [h1]; decide
  exact ⟨⟨by norm_num, hc⟩,
    (C2_blast_footprint wallState ⟨⟨0, 0⟩, 0⟩).2.1 (by norm_num) hc⟩

theorem C9_witness :
    (emptyState.field.width ≤ 0 ∨ emptyState.field.height ≤ 0) ∧
    (isWalkable emptyState (.valid ⟨0, 0⟩) = false ∧
      getAdjacentWalkablePositions emptyState (.valid ⟨0, 0⟩) = [] ∧
      isSafe emptyState (.valid ⟨0, 0⟩) = false ∧
      getNearestSafePosition emptyState (.valid ⟨0, 0⟩) = none ∧
      findNearestBox emptyState (.valid ⟨0, 0⟩) = none ∧
      getNextActionTowards emptyState (.valid ⟨0, 0⟩) (.valid ⟨1, 0⟩) = .DO_NOTHING) :=
  ⟨Or.inl (by decide),
   (C9_total_failsafe emptyState).2 (Or.inl (by decide)) (.valid ⟨0, 0⟩) (.valid ⟨1, 0⟩)⟩

end Bomba
